import Mathlib

/-!
Verification development for the safesql contextual SQL escaping engine.

The JavaScript sources are shallowly embedded here:
  * strings are `List Char` (named `Str`);
  * the regular expressions of the lexers are implemented as the equivalent
    deterministic scanning functions (each regex in the source is simple
    enough that its backtracking behaviour is deterministic, as argued in
    comments at each definition);
  * the stateful incremental lexers (closures in JS) are modelled as explicit
    state records with a step function returning the new state;
  * `throw` is modelled with `Except`, carrying the error message.

Sources embedded: src/lib/mysql-lexer.js, src/lib/pg-lexer.js (the current
revision, with delimiter lower-casing and continuation-ambiguity tracking),
src/lib/escapers.js / src/lib/pg-escaper.js (the escaping maps of
pg-escaper.js, whose case-sensitive dollar-tag hazard check matches the
test-suite), and src/lib/tag-fn.js / src/index.js (defangMergeHazard and the
interpolation driver).
-/

namespace SafeSql

/-- Strings of the embedded programs are lists of characters. -/
abbrev Str := List Char

/-- The single-quote character. -/
def sqc : Char := Char.ofNat 39

/-- The double-quote character. -/
def dqc : Char := '"'

/-- The backtick character. -/
def bqc : Char := Char.ofNat 96

/-- The backslash character. -/
def bslc : Char := Char.ofNat 92

/-- The NUL character. -/
def nulc : Char := Char.ofNat 0

/-- The backspace character. -/
def bsc : Char := Char.ofNat 8

/-- The tab character. -/
def tabc : Char := Char.ofNat 9

/-- The line-feed character. -/
def lfc : Char := Char.ofNat 10

/-- The carriage-return character. -/
def crc : Char := Char.ofNat 13

/-- The 0x1a (ASCII SUB, Windows end-of-file) character. -/
def subc : Char := Char.ofNat 26

/-- Replace every occurrence of character `c` by the string `r`
(the model of `String.prototype.replace` with a single-character
global regex such as `/'/g` or `/`+`/g` or `/\./g`). -/
def replaceChar (c : Char) (r : Str) (s : Str) : Str :=
  s.flatMap fun x => if x = c then r else [x]

/-- `pat` occurs at the very start of `s` (string prefix test). -/
def isLeadOf : Str → Str → Bool
  | [], _ => true
  | _ :: _, [] => false
  | p :: ps, c :: cs => p = c && isLeadOf ps cs

/-- The model of JavaScript `s.indexOf(pat)`: index of the first occurrence
of `pat` in `s`, `none` when there is no occurrence. -/
def idxOfSub (s pat : Str) : Option Nat :=
  if isLeadOf pat s then some 0
  else
    match s with
    | [] => none
    | _ :: cs => (idxOfSub cs pat).map (· + 1)

/-- The model of JavaScript `s.lastIndexOf(c)` for a single character. -/
def lastIdxOfChar (s : Str) (c : Char) : Option Nat :=
  match s with
  | [] => none
  | x :: cs =>
    match lastIdxOfChar cs c with
    | some i => some (i + 1)
    | none => if x = c then some 0 else none

/-- ASCII lower-casing of one character (the delimiters the lexers
lower-case are all ASCII). -/
def asciiLower (c : Char) : Char :=
  if 'A' ≤ c ∧ c ≤ 'Z' then Char.ofNat (c.toNat + 32) else c

/-- The model of `String.prototype.toLowerCase` on the ASCII delimiter
strings handled by the Postgres lexer. -/
def toLowerStr (s : Str) : Str := s.map asciiLower

/-- Membership of the character class `CHARS_GLOBAL_REGEXP`,
`[\0\b\t\n\r\x1a"'\\$]`, shared by all the character-map escapers. -/
def specialChar (c : Char) : Bool :=
  c = nulc ∨ c = bsc ∨ c = tabc ∨ c = lfc ∨ c = crc ∨ c = subc ∨
    c = dqc ∨ c = sqc ∨ c = bslc ∨ c = '$'

/-- `MYSQL_CHARS_ESCAPE_MAP` of src/lib/escapers.js, extended by the
identity on characters outside `CHARS_GLOBAL_REGEXP` (the regex-driven
replacement loop leaves those untouched). -/
def emapMy (c : Char) : Str :=
  if c = nulc then [bslc, '0']
  else if c = bsc then [bslc, 'b']
  else if c = tabc then [bslc, 't']
  else if c = lfc then [bslc, 'n']
  else if c = crc then [bslc, 'r']
  else if c = subc then [bslc, 'Z']
  else if c = dqc then [bslc, dqc]
  else if c = sqc then [bslc, sqc]
  else if c = bslc then [bslc, bslc]
  else if c = '$' then [bslc, '$']
  else [c]

/-- `PG_E_CHARS_ESCAPE_MAP` of src/lib/pg-escaper.js (note: the single
quote maps to a doubled quote there, which "fails safe" when the wrong
convention is picked for a single-quote delimited string), extended by the
identity outside the class. -/
def emapPgE (c : Char) : Str :=
  if c = nulc then [bslc, 'x', '0', '0']
  else if c = bsc then [bslc, 'b']
  else if c = tabc then [bslc, 't']
  else if c = lfc then [bslc, 'n']
  else if c = crc then [bslc, 'r']
  else if c = subc then [bslc, 'x', '1', 'a']
  else if c = dqc then [bslc, dqc]
  else if c = '$' then [bslc, '$']
  else if c = sqc then [sqc, sqc]
  else if c = bslc then [bslc, bslc]
  else [c]

/-- `PG_U_CHARS_ESCAPE_MAP` of src/lib/pg-escaper.js, extended by the
identity outside the class. -/
def emapPgU (c : Char) : Str :=
  if c = nulc then [bslc, '0', '0', '0', '0']
  else if c = bsc then [bslc, '0', '0', '0', '8']
  else if c = tabc then [bslc, '0', '0', '0', '9']
  else if c = lfc then [bslc, '0', '0', '0', 'a']
  else if c = crc then [bslc, '0', '0', '0', 'd']
  else if c = subc then [bslc, '0', '0', '1', 'a']
  else if c = dqc then [bslc, '0', '0', '2', '2']
  else if c = '$' then [bslc, '0', '0', '2', '4']
  else if c = sqc then [bslc, '0', '0', '2', '7']
  else if c = bslc then [bslc, '0', '0', '5', 'c']
  else [c]

/-- The regex-replacement loop shared by `mysqlEscapeString` and
`pgEscapeStringBody`: every character of the class is replaced by its map
image, every other character is kept.  (The `chunkIndex` bookkeeping of the
source is an allocation optimisation with the same result.) -/
def escBodyWith (emap : Char → Str) (s : Str) : Str :=
  s.flatMap emap

/-- `pgEscapeStringBody` of src/lib/pg-escaper.js. -/
def pgEscapeStringBody (emap : Char → Str) (s : Str) : Str :=
  escBodyWith emap s

/-- `mysqlEscapeString` of src/lib/escapers.js: the body with
`MYSQL_CHARS_ESCAPE_MAP` applied, wrapped in single quotes. -/
def mysqlEscapeString (s : Str) : Str :=
  sqc :: escBodyWith emapMy s ++ [sqc]

/-- `pgEscapeString` of src/lib/pg-escaper.js: plain single-quoted form
when the escaped body is unchanged, otherwise the `e`-prefixed form. -/
def pgEscapeString (s : Str) : Str :=
  let escapedVal := pgEscapeStringBody emapPgE s
  if escapedVal = s then sqc :: escapedVal ++ [sqc]
  else 'e' :: sqc :: escapedVal ++ [sqc]

/-- The string path of `mysqlEscapeId` (src/lib/escapers.js): backticks
doubled, and unless `forbidQualified` each dot becomes a close-reopen pair,
the whole wrapped in backticks. -/
def mysqlEscapeIdStr (forbidQualified : Bool) (s : Str) : Str :=
  if forbidQualified then bqc :: replaceChar bqc [bqc, bqc] s ++ [bqc]
  else
    bqc :: replaceChar '.' [bqc, '.', bqc] (replaceChar bqc [bqc, bqc] s) ++ [bqc]

/-- The string path of `pgEscapeId` (src/lib/pg-escaper.js): for the
unicode form the body is escaped with `PG_U_CHARS_ESCAPE_MAP`, otherwise
double quotes are doubled; unless `forbidQualified` each dot becomes a
close-reopen pair; the whole is wrapped in the identifier quotes. -/
def pgEscapeIdStr (forbidQualified unicode : Bool) (s : Str) : Str :=
  let e0 := if unicode then pgEscapeStringBody emapPgU s
            else replaceChar dqc [dqc, dqc] s
  let e1 := if forbidQualified then e0
            else replaceChar '.'
              (if unicode then [dqc, '.', 'u', '&', dqc] else [dqc, '.', dqc]) e0
  (if unicode then ['u', '&', dqc] else [dqc]) ++ e1 ++ [dqc]

/-- The effect of `PG_ID_DELIMS_REGEXP` = `/^(?:[Uu]&)?"|"$/g` used by
`pgEscapeDelimited`: strip one leading `(u&)?"` and one trailing quote
(those are the only places the anchored alternatives can match). -/
def stripPgIdDelims (s : Str) : Str :=
  let s1 :=
    if isLeadOf ['u', '&', dqc] s ∨ isLeadOf ['U', '&', dqc] s then s.drop 3
    else if s.head? = some dqc then s.drop 1
    else s
  if s1.getLast? = some dqc then s1.dropLast else s1

/-- The effect of the `/^`+backtick+`|`+backtick+`$/g` strip used by
`mysqlEscapeDelimited`: one leading and one trailing backtick removed. -/
def stripBtDelims (s : Str) : Str :=
  let s1 := if s.head? = some bqc then s.drop 1 else s
  if s1.getLast? = some bqc then s1.dropLast else s1

/-- The dollar-tag delimiter shape test of `pgEscapeDelimitedString`:
`delimiter[0] === '$' && delimiter.indexOf('$', 1) === delimiter.length - 1`. -/
def pgDollarDelimOk (d : Str) : Bool :=
  decide (d.head? = some '$') &&
    (match idxOfSub (d.drop 1) ['$'] with
     | some i => decide (1 + i = d.length - 1)
     | none => false)

/-- The embed-hazard test of `pgEscapeDelimitedString` for dollar-quoted
splices: the closing tag occurs in the value, or the tail of the value from
its last dollar is a prefix of the closing tag. -/
def pgEmbedHazard (strValue d : Str) : Bool :=
  (idxOfSub strValue d).isSome ||
    (match lastIdxOfChar strValue '$' with
     | some ld => isLeadOf (strValue.drop ld) d
     | none => false)

/-- `pgEscapeDelimitedString` of src/lib/pg-escaper.js (the error strings
keep the identifying words of the source messages). -/
def pgEscapeDelimitedString (strValue : Str) (delimiter : Str) : Except Str Str :=
  if delimiter = [sqc] ∨ delimiter = ['b', sqc] ∨ delimiter = ['x', sqc] then
    .ok (replaceChar sqc [sqc, sqc] strValue)
  else if delimiter = ['e', sqc] then
    .ok (pgEscapeStringBody emapPgE strValue)
  else if delimiter = ['e'] then
    .ok (sqc :: pgEscapeStringBody emapPgE strValue ++ [sqc])
  else if delimiter = ['u', '&', sqc] then
    .ok (pgEscapeStringBody emapPgU strValue)
  else if pgDollarDelimOk delimiter then
    if pgEmbedHazard strValue delimiter then
      .error ("Cannot embed ".toList ++ strValue ++ " between ".toList ++ delimiter)
    else .ok strValue
  else .error ("Cannot escape with ".toList ++ delimiter)

/-- `pgEscapeDelimited` of src/lib/pg-escaper.js on textual values (the
buffer re-encoding branch concerns binary blobs, outside this model). -/
def pgEscapeDelimited (value : Str) (delimiter : Str) (forbidQualified : Bool) :
    Except Str Str :=
  if delimiter = [dqc] then
    .ok (stripPgIdDelims (pgEscapeIdStr forbidQualified false value))
  else if delimiter = ['u', '&', dqc] then
    .ok (stripPgIdDelims (pgEscapeIdStr forbidQualified true value))
  else pgEscapeDelimitedString value delimiter

/-- `mysqlEscapeDelimited` (src/lib/escapers.js) / `escapeDelimitedValue`
(src/index.js) on textual values: identifier context strips the outer
backticks of `mysqlEscapeId`, any other context strips the outer quotes of
the free-standing string escape. -/
def mysqlEscapeDelimited (value : Str) (delimiter : Char) (forbidQualified : Bool) : Str :=
  if delimiter = bqc then stripBtDelims (mysqlEscapeIdStr forbidQualified value)
  else ((mysqlEscapeString value).drop 1).dropLast

/-- The closed variant type of escaper input values (section 9 of the spec:
dynamic type dispatch modelled as a tagged variant).  `vnum` carries the
host textual rendering of the number; `vfunc` is a callable value (carrying
its host string rendering, which the free-standing escaper would quote);
`vfrag` / `vid` are the trusted fragment / identifier contents. -/
inductive SqlValue where
  | vnull
  | vbool (b : Bool)
  | vnum (s : Str)
  | vstr (s : Str)
  | vfrag (s : Str)
  | vid (s : Str)
  | vseries (l : List SqlValue)
  | vmap (l : List (Str × SqlValue))
  | vfunc (s : Str)

/-- The host `toString` of a plain object, used by the `stringifyObjects`
branch of `escape` when it hits a keyed mapping. -/
def objectDefaultToString : Str := "[object Object]".toList

mutual

/-- `escape` of `makeEscaper` (src/lib/escapers.js), parameterised by the
dialect `escapeId` (string path, qualified allowed — the source calls it
with no second argument) and `escapeString`, following the source dispatch
order.  Date and buffer values are outside this model. -/
def escapeVal (eid es : Str → Str) (stringifyObjects : Bool) : SqlValue → Str
  | .vnull => "NULL".toList
  | .vbool b => if b then "true".toList else "false".toList
  | .vnum s => s
  | .vstr s => es s
  | .vfrag s => s
  | .vid s => eid s
  | .vseries l => escapeSeriesV eid es true l false
  | .vmap l =>
    if stringifyObjects then es objectDefaultToString
    else objectToValuesV eid es l false
  | .vfunc s => es s

/-- `escapeSeries` of src/lib/escapers.js with `escapeOne` inlined as
`escape(element, true, timeZone)`; the `wrote` flag models the
comma-separator logic, `nests` the row-group parenthesisation flag.  Note
the nested call passes `nests = true` again. -/
def escapeSeriesV (eid es : Str → Str) (nests : Bool) :
    List SqlValue → Bool → Str
  | [], _ => []
  | .vseries inner :: rest, wrote =>
    (if nests then
      (if wrote then ", (".toList else ['(']) ++
        escapeSeriesV eid es true inner false ++ [')']
    else
      (if wrote then ", ".toList else []) ++
        escapeVal eid es true (.vseries inner)) ++
    escapeSeriesV eid es nests rest true
  | v :: rest, wrote =>
    ((if wrote then ", ".toList else []) ++ escapeVal eid es true v) ++
      escapeSeriesV eid es nests rest true

/-- `objectToValues` of src/lib/escapers.js: `key = value` pairs joined
with a comma, entries whose value is callable skipped, nested values
escaped with `stringifyObjects` forced true. -/
def objectToValuesV (eid es : Str → Str) :
    List (Str × SqlValue) → Bool → Str
  | [], _ => []
  | (_, .vfunc _) :: rest, wrote => objectToValuesV eid es rest wrote
  | (k, v) :: rest, wrote =>
    ((if wrote then ", ".toList else []) ++ eid k ++ " = ".toList ++
      escapeVal eid es true v) ++
      objectToValuesV eid es rest true

end

/-- The MySQL-dialect free-standing escaper `mysql.escape`. -/
def mysqlEscape (stringifyObjects : Bool) (v : SqlValue) : Str :=
  escapeVal (mysqlEscapeIdStr false) mysqlEscapeString stringifyObjects v

/-- The Postgres-dialect free-standing escaper `pg.escape`. -/
def pgEscape (stringifyObjects : Bool) (v : SqlValue) : Str :=
  escapeVal (pgEscapeIdStr false false) pgEscapeString stringifyObjects v

/-- `defangMergeHazard` of src/index.js and src/lib/tag-fn.js (verbatim in
both): no defense at all unless the escaped text ends with a quote
character; then a space is prepended when that character also starts the
escaped text and ends the accumulated output, and a space is appended when
it starts the following chunk. -/
def defangMergeHazard (before escaped after : Str) : Str :=
  match escaped.getLast? with
  | none => escaped
  | some escapedLast =>
    if ¬(escapedLast = dqc ∨ escapedLast = sqc ∨ escapedLast = bqc) then escaped
    else
      let escapedSetOff :=
        if escaped.head? = some escapedLast ∧ before.getLast? = some escapedLast
        then ' ' :: escaped else escaped
      if after.head? = some escapedLast then escapedSetOff ++ [' ']
      else escapedSetOff

/-! ### The MySQL lexer (src/lib/mysql-lexer.js) -/

/-- One hexadecimal digit, lower case (for `\u00xx` escapes). -/
def hexDigit (n : Nat) : Char :=
  if n < 10 then Char.ofNat (48 + n) else Char.ofNat (87 + n)

/-- JSON escaping of one character, as `JSON.stringify` does inside the
`msg` template helper of the MySQL lexer. -/
def jsonEscChar (c : Char) : Str :=
  if c = dqc then [bslc, dqc]
  else if c = bslc then [bslc, bslc]
  else if c = lfc then [bslc, 'n']
  else if c = crc then [bslc, 'r']
  else if c = tabc then [bslc, 't']
  else if c = bsc then [bslc, 'b']
  else if c = Char.ofNat 12 then [bslc, 'f']
  else if c.toNat < 32 then
    [bslc, 'u', '0', '0', hexDigit (c.toNat / 16), hexDigit (c.toNat % 16)]
  else [c]

/-- `JSON.stringify` of a string value. -/
def jsonStr (s : Str) : Str := dqc :: s.flatMap jsonEscChar ++ [dqc]

/-- The whitespace class `WSP` = `[\t\r\n ]` of the MySQL lexer. -/
def isWsp (c : Char) : Bool := c = tabc ∨ c = crc ∨ c = lfc ∨ c = ' '

/-- Index of the first carriage return or line feed. -/
def findCrlf : Str → Option Nat
  | [] => none
  | c :: rest =>
    if c = crc ∨ c = lfc then some 0 else (findCrlf rest).map (· + 1)

/-- Index of the first occurrence of the two-character close token. -/
def findStarSlash : Str → Option Nat
  | [] => none
  | c :: rest =>
    if c = '*' ∧ rest.head? = some '/' then some 0
    else (findStarSlash rest).map (· + 1)

theorem findCrlf_le : ∀ s : Str, ∀ k, findCrlf s = some k → k < s.length := by
  intro s
  induction s with
  | nil => intro k h; simp [findCrlf] at h
  | cons c rest ih =>
    intro k h
    simp only [findCrlf] at h
    split at h
    · cases h; simp
    · cases hrec : findCrlf rest with
      | none => rw [hrec] at h; simp at h
      | some j =>
        rw [hrec] at h
        simp at h
        have := ih j hrec
        simp [← h]
        omega

theorem findStarSlash_le : ∀ s : Str, ∀ k, findStarSlash s = some k → k + 2 ≤ s.length := by
  intro s
  induction s with
  | nil => intro k h; simp [findStarSlash] at h
  | cons c rest ih =>
    intro k h
    simp only [findStarSlash] at h
    split at h
    · cases h
      rename_i hc
      cases rest with
      | nil => simp at hc
      | cons d t => simp
    · cases hrec : findStarSlash rest with
      | none => rw [hrec] at h; simp at h
      | some j =>
        rw [hrec] at h
        simp at h
        have := ih j hrec
        simp [← h]
        omega

/-- The maximal match of `PREFIX_BEFORE_DELIMITER` (the top-level scan of
the MySQL lexer), returned as the remaining suffix.  Each Kleene-star
iteration of the regex consumes either one full comment (`--`+WSP…newline,
`#`…newline, or a lazily closed `/*`…`*/`) or a single inert character; the
run-character guards `-(?!-WSP)` and `/(?![*])` become the case analysis
below, and an unterminated comment makes the star stop in front of it. -/
def mysqlTopRemF (fuel : Nat) (s : Str) : Str :=
  match fuel with
  | 0 => s
  | fuel + 1 =>
    match s with
    | [] => []
    | '-' :: '-' :: rest =>
      (match rest with
       | [] => []
       | c :: tl =>
         if isWsp c then
           match findCrlf (c :: tl) with
           | some k => mysqlTopRemF fuel ((c :: tl).drop (k + 1))
           | none => '-' :: '-' :: c :: tl
         else mysqlTopRemF fuel ('-' :: c :: tl))
    | '#' :: rest =>
      (match findCrlf rest with
       | some k => mysqlTopRemF fuel (rest.drop (k + 1))
       | none => '#' :: rest)
    | '/' :: '*' :: rest =>
      (match findStarSlash rest with
       | some k => mysqlTopRemF fuel (rest.drop (k + 2))
       | none => '/' :: '*' :: rest)
    | '/' :: rest => mysqlTopRemF fuel rest
    | c :: rest =>
      if c = sqc ∨ c = dqc ∨ c = bqc then c :: rest else mysqlTopRemF fuel rest

/-- The scan with its fuel bound: every recursive step of the star
consumes at least one character, so `s.length + 1` steps always finish. -/
def mysqlTopRem (s : Str) : Str := mysqlTopRemF (s.length + 1) s

/-- The maximal match of `DELIMITED_BODIES[d]` =
`/^(?:[^d\\]|\\[\s\S]|dd)*/`, returned as the remaining suffix: backslash
pairs and doubled delimiters are consumed, a single delimiter (or a
trailing lone backslash) stops the match. -/
def myDelimBodyRem (d : Char) (s : Str) : Str :=
  match s with
  | [] => []
  | [c1] => if c1 = bslc ∨ c1 = d then [c1] else []
  | c1 :: c2 :: rest =>
    if c1 = bslc then myDelimBodyRem d rest
    else if c1 = d ∧ c2 = d then myDelimBodyRem d rest
    else if c1 = d then c1 :: c2 :: rest
    else myDelimBodyRem d (c2 :: rest)

theorem myDelimBodyRem_le (d : Char) (s : Str) : (myDelimBodyRem d s).length ≤ s.length := by
  induction s using myDelimBodyRem.induct d
  all_goals simp_all +decide [myDelimBodyRem]
  all_goals omega

theorem mysqlTopRemF_le (fuel : Nat) (s : Str) : (mysqlTopRemF fuel s).length ≤ s.length := by
  induction fuel, s using mysqlTopRemF.induct
  all_goals simp_all [mysqlTopRemF, List.length_drop]
  all_goals omega

theorem mysqlTopRem_le (s : Str) : (mysqlTopRem s).length ≤ s.length :=
  mysqlTopRemF_le (s.length + 1) s

/-- One invocation of the MySQL `makeLexer` closure body on one text: while
input remains, match the current pattern (`DELIMITED_BODIES[delimiter]` or
`PREFIX_BEFORE_DELIMITER`); opening and closing delimiters toggle the
state, anything else at the stop position throws.  `closes` counts the
constructs closed (an instrumentation used by the round-trip theorems).
Each iteration consumes at least one character, so `text.length + 1` fuel
always finishes; the fuel branch is unreachable from the wrapper below. -/
def myLexLoopF (fuel : Nat) (delim : Option Char) (text : Str) (closes : Nat) :
    Except Str (Option Char × Nat) :=
  match fuel with
  | 0 => .error ("fuel".toList)
  | fuel + 1 =>
    match text with
    | [] => .ok (delim, closes)
    | _ :: _ =>
      match delim with
      | some d =>
        match myDelimBodyRem d text with
        | [] => .ok (some d, closes)
        | c :: rest =>
          if c = d then myLexLoopF fuel none rest (closes + 1)
          else
            .error ("Expected ".toList ++ jsonStr [c] ++ " at ".toList ++ jsonStr text)
      | none =>
        match mysqlTopRem text with
        | [] => .ok (none, closes)
        | c :: rest =>
          if c = sqc ∨ c = dqc ∨ c = bqc then myLexLoopF fuel (some c) rest closes
          else .error ("Expected delimiter at ".toList ++ jsonStr text)

/-- The loop with its sufficient fuel. -/
def myLexLoop (delim : Option Char) (text : Str) : Except Str (Option Char × Nat) :=
  myLexLoopF (text.length + 1) delim text 0

/-- The state of one MySQL `makeLexer` instance: the sticky error message
and the open delimiter. -/
structure MyState where
  errorMessage : Option Str
  delim : Option Char
deriving DecidableEq

/-- A freshly constructed MySQL lexer. -/
def myInit : MyState := { errorMessage := none, delim := none }

/-- The unterminated-construct message of both lexers. -/
def unclosedMsg (d : Str) : Str := "Unclosed quoted string: ".toList ++ d

/-- Run the lexer body on a text and update the state, recording the error
message on failure (each `throw` in the source assigns `errorMessage`). -/
def myFeedText (s : MyState) (text : Str) : Except Str (Option Char) × MyState :=
  match myLexLoop s.delim text with
  | .ok (d, _) => (.ok d, { errorMessage := none, delim := d })
  | .error m => (.error m, { s with errorMessage := some m })

/-- `makeLexer` of src/lib/mysql-lexer.js as a step function: replay a
recorded failure; on `null` input fail when a delimiter is open, otherwise
fall through (the source then lexes the string coercion of `null`, the
four inert characters `null`). -/
def myFeed (s : MyState) (input : Option Str) : Except Str (Option Char) × MyState :=
  match s.errorMessage with
  | some m => (.error m, s)
  | none =>
    match input with
    | none =>
      match s.delim with
      | some d =>
        let m := unclosedMsg [d]
        (.error m, { s with errorMessage := some m })
      | none => myFeedText s ("null".toList)
    | some t => myFeedText s t

/-- Feed a whole chunk sequence, stopping at the first failure. -/
def myFeedAll (s : MyState) : List Str → Except Str MyState
  | [] => .ok s
  | c :: rest =>
    match myFeed s (some c) with
    | (.ok _, s1) => myFeedAll s1 rest
    | (.error m, _) => .error m

/-! ### The Postgres lexer (src/lib/pg-lexer.js, current revision) -/

/-- Dollar-quote tag characters, `[a-zA-Z_0-9]`. -/
def isTagChar (c : Char) : Bool :=
  ('a' ≤ c ∧ c ≤ 'z') ∨ ('A' ≤ c ∧ c ≤ 'Z') ∨ ('0' ≤ c ∧ c ≤ '9') ∨ c = '_'

/-- Dollar-quote tag start characters, `[a-zA-Z_]`. -/
def isTagStart (c : Char) : Bool :=
  ('a' ≤ c ∧ c ≤ 'z') ∨ ('A' ≤ c ∧ c ≤ 'Z') ∨ c = '_'

/-- JavaScript `.` (without the `s` flag): anything but a line
terminator. -/
def isJsDot (c : Char) : Bool :=
  ¬(c = lfc ∨ c = crc ∨ c = Char.ofNat 0x2028 ∨ c = Char.ofNat 0x2029)

/-- `TOP_LEVEL_DELIMITER` tried at one position, alternatives in source
order: line comment, block comment start, dollar tag (greedy identifier
run which must be followed by the closing dollar, else the optional tag
backtracks to empty which requires an immediate dollar), `(?:[Uu]&)?"`,
`(?:[Uu]&|[EeBbXx])?'`. -/
def pgMatchAt (s : Str) : Option Str :=
  match s with
  | [] => none
  | c1 :: rest =>
    if c1 = '-' ∧ rest.head? = some '-' then some ['-', '-']
    else if c1 = '/' ∧ rest.head? = some '*' then some ['/', '*']
    else if c1 = '$' then
      (let run := rest.takeWhile isTagChar
       if run = [] then
         if rest.head? = some '$' then some ['$', '$'] else none
       else
         if (run.head?.elim false isTagStart) ∧ (rest.drop run.length).head? = some '$'
         then some ('$' :: (run ++ ['$'])) else none)
    else if c1 = dqc then some [dqc]
    else if (c1 = 'U' ∨ c1 = 'u') ∧ isLeadOf ['&', dqc] rest then some [c1, '&', dqc]
    else if c1 = sqc then some [sqc]
    else if (c1 = 'U' ∨ c1 = 'u') ∧ isLeadOf ['&', sqc] rest then some [c1, '&', sqc]
    else if (c1 = 'E' ∨ c1 = 'e' ∨ c1 = 'B' ∨ c1 = 'b' ∨ c1 = 'X' ∨ c1 = 'x') ∧
        rest.head? = some sqc then some [c1, sqc]
    else none

/-- Leftmost match of `TOP_LEVEL_DELIMITER`: the inert text before the
match, the matched delimiter, and the rest. -/
def pgTopScan : Str → Option (Str × Str × Str)
  | [] => none
  | c :: cs =>
    match pgMatchAt (c :: cs) with
    | some m => some ([], m, (c :: cs).drop m.length)
    | none => (pgTopScan cs).map (fun x => (c :: x.1, x.2.1, x.2.2))

/-- The maximal match of a string-body regex
(`SIMPLE_??_STRING_BODY` when `esc` is false, `ESC_??_STRING_BODY` when
true, with quote character `q`), returning the suffix after the whole
match and whether the optional closing quote group was captured. -/
def strBodyRem (esc : Bool) (q : Char) (s : Str) : Str × Bool :=
  match s with
  | [] => ([], false)
  | [c] =>
    if c = q then ([], true)
    else if esc ∧ c = bslc then ([c], false)
    else ([], false)
  | c1 :: c2 :: rest =>
    if c1 = q ∧ c2 = q then strBodyRem esc q rest
    else if c1 = q then (c2 :: rest, true)
    else if esc ∧ c1 = bslc then
      (if isJsDot c2 then strBodyRem esc q rest else (c1 :: c2 :: rest, false))
    else strBodyRem esc q (c2 :: rest)

/-- `STRING_BODIES` of the current pg lexer: which delimiters use the
escape-aware body (`some true`), the simple body (`some false`), or none
at all (a lookup miss, which in the source would crash). -/
def stringBodyKind (d : Str) : Option Bool :=
  if d = [dqc] then some false
  else if d = ['u', '&', dqc] then some true
  else if d = [sqc] then some false
  else if d = ['b', sqc] then some false
  else if d = ['e', sqc] then some true
  else if d = ['u', '&', sqc] then some true
  else if d = ['x', sqc] then some false
  else none

/-- The `-` handler (line comments): consume to the line end; a chunk
ending inside the comment is an unterminated-line-comment error.  The
third component counts completely closed constructs. -/
def pgLineHandler (chunk : Str) : Except Str (Option Str × Str × Nat) :=
  let bodyLen := (chunk.takeWhile (fun c => ¬(c = crc ∨ c = lfc))).length
  let remainder := chunk.drop bodyLen
  if remainder ≠ [] then .ok (none, remainder, 1)
  else .error ("Unterminated line comment: --".toList ++ chunk)

/-- One step of `BLOCK_COMMENT_TOKEN.exec`: the first `*/` or `/*`
(`*/` first in the alternation), with the suffix after it. -/
def blockScan : Str → Option (Bool × Str)
  | [] => none
  | [_] => none
  | c1 :: c2 :: rest =>
    if c1 = '*' ∧ c2 = '/' then some (false, rest)
    else if c1 = '/' ∧ c2 = '*' then some (true, rest)
    else blockScan (c2 :: rest)

/-- The depth-counting loop of the `*` handler.  Fuel: every iteration
consumes at least two characters. -/
def blockLoopF (fuel : Nat) (depth : Nat) (remainder : Str) : Except Str Str :=
  match fuel with
  | 0 => .error ("fuel".toList)
  | fuel + 1 =>
    match remainder with
    | [] => if depth = 0 then .ok remainder else .error ("unterminated".toList)
    | _ =>
      match blockScan remainder with
      | none => if depth = 0 then .ok remainder else .error ("unterminated".toList)
      | some (isOpen, rest) =>
        if isOpen then blockLoopF fuel (depth + 1) rest
        else if depth = 1 then .ok rest
        else blockLoopF fuel (depth - 1) rest

/-- The `*` handler (block comments): balanced token counting starting at
depth 1 (`delimiter.length / 2` for the only `*`-delimiter, `/*`); a chunk
exhausted at positive depth is an unterminated-block-comment error. -/
def pgBlockHandler (chunk : Str) : Except Str (Option Str × Str × Nat) :=
  match blockLoopF (chunk.length + 1) 1 chunk with
  | .ok rem => .ok (none, rem, 1)
  | .error _ => .error ("Unterminated block comment: /*".toList ++ chunk)

/-- The `$` handler (dollar-quoted strings): close at the first
case-sensitive occurrence of the tag; otherwise a chunk suffix from its
last dollar that is a prefix of the tag is a merge hazard, else the state
is kept with the chunk fully consumed. -/
def pgDollarHandler (d chunk : Str) : Except Str (Option Str × Str × Nat) :=
  match idxOfSub chunk d with
  | some i => .ok (none, chunk.drop (i + d.length), 1)
  | none =>
    match lastIdxOfChar chunk '$' with
    | some ld =>
      if isLeadOf (chunk.drop ld) d then
        .error ("merge hazard ".toList ++ sqc :: chunk.drop ld ++ sqc :: " at end of ".toList ++
          d ++ " delimited string".toList)
      else .ok (some d, [], 0)
    | none => .ok (some d, [], 0)

/-- The `"` handler (identifier literals). -/
def pgDqHandler (d chunk : Str) : Except Str (Option Str × Str × Nat) :=
  match stringBodyKind d with
  | none => .error ("no string body".toList)
  | some esc =>
    let r := strBodyRem esc dqc chunk
    if r.2 then .ok (none, r.1, 1)
    else if r.1.length < chunk.length then .ok (some d, r.1, 0)
    else
      .error ("Incomplete escape sequence in ".toList ++ d ++
        " delimited string at ".toList ++ chunk)

/-- The `'`-last-character handler (string literals): closing an `e`-kind
string enters the escape-continuation state `e` instead of the top
level. -/
def pgSqHandler (d chunk : Str) : Except Str (Option Str × Str × Nat) :=
  match stringBodyKind d with
  | none => .error ("no string body".toList)
  | some esc =>
    let r := strBodyRem esc sqc chunk
    if r.2 then
      .ok (if d = ['e', sqc] ∨ d = ['E', sqc] then some ['e'] else none, r.1, 1)
    else if r.1.length < chunk.length then .ok (some d, r.1, 0)
    else
      .error ("Incomplete escape sequence in ".toList ++ d ++
        " delimited string at ".toList ++ chunk)

/-- One `ESC_STRING_CONTINUATION.exec`: leading whitespace, then an
optional sub-delimiter (`/*`, `--` or a quote, in that order); returns the
total match length and the captured sub-delimiter. -/
def escContScan (s : Str) : Nat × Option Str :=
  let w := (s.takeWhile isWsp).length
  let rest := s.drop w
  if isLeadOf ['/', '*'] rest then (w + 2, some ['/', '*'])
  else if isLeadOf ['-', '-'] rest then (w + 2, some ['-', '-'])
  else if rest.head? = some sqc then (w + 1, some [sqc])
  else (w, none)

/-- The `e` handler (escape-string continuation detection).  The inner
`while` of the source runs its handler at most once, because the line and
block handlers always return a null sub-delimiter; a sub-delimiter
followed by an empty remainder is skipped and the state stays `e`.  Fuel:
every loop iteration consumes at least one character. -/
def eLoopF (fuel : Nat) (remainder : Str) : Except Str (Option Str × Str × Nat) :=
  match fuel with
  | 0 => .error ("fuel".toList)
  | fuel + 1 =>
    match remainder with
    | [] => .ok (some ['e'], [], 0)
    | _ =>
      let ns := escContScan remainder
      if ns.1 = 0 then .ok (none, remainder, 0)
      else
        let rem2 := remainder.drop ns.1
        match ns.2 with
        | none => eLoopF fuel rem2
        | some sd =>
          if sd = [sqc] then .ok (some ['e', sqc], rem2, 0)
          else if rem2 = [] then .ok (some ['e'], [], 0)
          else
            match (if sd = ['/', '*'] then pgBlockHandler rem2 else pgLineHandler rem2) with
            | .error m => .error m
            | .ok (_, rem3, k) =>
              match eLoopF fuel rem3 with
              | .ok (res, rem4, k2) => .ok (res, rem4, k + k2)
              | .error m => .error m

/-- Dispatch of `LAST_DELIMITER_CHARACTER_TO_HANDLER` on the last
character of the open delimiter (a lookup miss would crash in the
source). -/
def pgHandle (d chunk : Str) : Except Str (Option Str × Str × Nat) :=
  match d.getLast? with
  | some '-' => pgLineHandler chunk
  | some '*' => pgBlockHandler chunk
  | some '$' => pgDollarHandler d chunk
  | some 'e' => eLoopF (chunk.length + 1) chunk
  | some c =>
    if c = dqc then pgDqHandler d chunk
    else if c = sqc then pgSqHandler d chunk
    else .error ("no handler".toList)
  | none => .error ("no handler".toList)

/-- Non-whitespace test `/[^\t\n\r ]/` used by the
continuation-ambiguity bookkeeping. -/
def hasNonWs (s : Str) : Bool := s.any (fun c => ¬ isWsp c)

/-- The in-chunk lexer state of the Postgres lexer. -/
structure PgL where
  delim : Option Str
  contAmbig : Bool
deriving DecidableEq

/-- `consumeFromLeft` of the current pg lexer: inside a delimiter,
non-comment handlers clear the continuation-ambiguity flag, then the
handler runs; at the top level the next delimiter start is found (and
lower-cased unless it is a dollar tag), with the flag cleared when
non-whitespace was passed over. -/
def pgConsumeFromLeft (st : PgL) (remainder : Str) : Except Str (PgL × Str × Nat) :=
  match st.delim with
  | some d =>
    let ca :=
      if d.getLast? ≠ some '*' ∧ d.getLast? ≠ some '-' then false else st.contAmbig
    match pgHandle d remainder with
    | .ok (d2, rem, k) => .ok ({ delim := d2, contAmbig := ca }, rem, k)
    | .error m => .error m
  | none =>
    match pgTopScan remainder with
    | none =>
      let ca := if st.contAmbig ∧ hasNonWs remainder then false else st.contAmbig
      .ok ({ st with contAmbig := ca }, [], 0)
    | some x =>
      let ca := if st.contAmbig ∧ hasNonWs x.1 then false else st.contAmbig
      let d := if x.2.1.head? = some '$' then x.2.1 else toLowerStr x.2.1
      .ok ({ delim := some d, contAmbig := ca }, x.2.2, 0)

/-- The `while (remainder) remainder = consumeFromLeft(remainder)` loop.
Fuel: every iteration either consumes a character or moves the delimiter
to `none`, and a top-level iteration always consumes, so `2n + 2` steps
always finish. -/
def pgLexLoopF (fuel : Nat) (st : PgL) (remainder : Str) (closes : Nat) :
    Except Str (PgL × Nat) :=
  match fuel with
  | 0 => .error ("fuel".toList)
  | fuel + 1 =>
    match remainder with
    | [] => .ok (st, closes)
    | _ =>
      match pgConsumeFromLeft st remainder with
      | .ok (st2, rem2, k) => pgLexLoopF fuel st2 rem2 (closes + k)
      | .error m => .error m

/-- The loop with its fuel bound. -/
def pgLexChunk (st : PgL) (chunk : Str) : Except Str (PgL × Nat) :=
  pgLexLoopF (2 * chunk.length + 2) st chunk 0

/-- The persistent state of one Postgres `makeLexer` instance (before the
`replayError` wrapper): the open delimiter, the continuation-ambiguity
flag, and `calls`, the number of chunk calls made so far
(`chunkIndex + 1` of the source, which starts at `-1`). -/
structure PgInner where
  delim : Option Str
  contAmbig : Bool
  calls : Nat
deriving DecidableEq

/-- The ambiguous-continuation error of the pg lexer (the identifying
words of the source message). -/
def ambiguousMsg : Str := "Potential for ambiguous string continuation".toList

/-- `lexer` of the current pg `makeLexer`: `null` input checks that no
construct other than the `e` continuation is open; a chunk first raises
the recorded continuation ambiguity when this is at least the third call,
then resets the flag to whether the chunk has a newline, and lexes. -/
def pgLexInner (s : PgInner) (input : Option Str) :
    Except Str (Option Str × PgInner × Nat) :=
  match input with
  | none =>
    if s.delim ≠ none ∧ s.delim ≠ some ['e'] then
      .error (unclosedMsg (s.delim.getD []))
    else .ok (s.delim, s, 0)
  | some chunk =>
    let calls := s.calls + 1
    if s.contAmbig ∧ calls - 1 > 1 then .error ambiguousMsg
    else
      let ca := chunk.any (fun c => c = lfc ∨ c = crc)
      match pgLexChunk { delim := s.delim, contAmbig := ca } chunk with
      | .ok (st2, k) =>
        .ok (st2.delim, { delim := st2.delim, contAmbig := st2.contAmbig, calls := calls }, k)
      | .error m => .error m

/-- The full state of one Postgres lexer instance: the `replayError`
wrapper state and the inner state. -/
structure PgState where
  msg : Option Str
  inner : PgInner
deriving DecidableEq

/-- A freshly constructed Postgres lexer. -/
def pgInit : PgState := { msg := none, inner := { delim := none, contAmbig := false, calls := 0 } }

/-- `replayError(lexer)` of src/lib/pg-lexer.js: a recorded message is
re-thrown on every call; a fresh failure records its message. -/
def pgFeed (s : PgState) (input : Option Str) : Except Str (Option Str) × PgState :=
  match s.msg with
  | some m => (.error m, s)
  | none =>
    match pgLexInner s.inner input with
    | .ok x => (.ok x.1, { msg := none, inner := x.2.1 })
    | .error m => (.error m, { s with msg := some m })

/-- Feed a whole chunk sequence to a Postgres lexer, stopping at the first
failure. -/
def pgFeedAll (s : PgState) : List Str → Except Str PgState
  | [] => .ok s
  | c :: rest =>
    match pgFeed s (some c) with
    | (.ok _, s1) => pgFeedAll s1 rest
    | (.error m, _) => .error m

/-! ### The interpolation driver (src/index.js) -/

mutual

/-- The host `String(value)` coercion used by `escapeDelimitedValue`.  An
array stringifies as its elements joined with commas (`Array.prototype
.toString` = `join(",")`), where a `null` element renders as the empty
string. -/
def valToString : SqlValue → Str
  | .vnull => "null".toList
  | .vbool b => if b then "true".toList else "false".toList
  | .vnum s => s
  | .vstr s => s
  | .vfrag s => s
  | .vid s => s
  | .vseries l => seriesToString l
  | .vmap _ => objectDefaultToString
  | .vfunc s => s

/-- `join(",")` over the stringified elements; `null` joins as empty. -/
def seriesToString : List SqlValue → Str
  | [] => []
  | [SqlValue.vnull] => []
  | [v] => valToString v
  | SqlValue.vnull :: rest => ',' :: seriesToString rest
  | v :: rest => valToString v ++ ',' :: seriesToString rest

end

/-- `escapeDelimitedValue` of src/index.js on a value. -/
def mysqlEscapeDelimitedVal (v : SqlValue) (d : Char) (fq : Bool) : Str :=
  mysqlEscapeDelimited (valToString v) d fq

/-- `computeStatic` of src/index.js: lex every chunk, collect the
delimiter after each, and reject a template whose last delimiter is still
open. -/
def mysqlComputeStaticGo (s : MyState) : List Str → Except Str (List (Option Char))
  | [] =>
    (match s.delim with
     | some d => .error (unclosedMsg [d])
     | none => .ok [])
  | c :: rest =>
    match myFeed s (some c) with
    | (.ok d, s1) => (mysqlComputeStaticGo s1 rest).map (fun l => d :: l)
    | (.error m, _) => .error m

/-- `computeStatic` from the fresh lexer. -/
def mysqlComputeStatic (chunks : List Str) : Except Str (List (Option Char)) :=
  mysqlComputeStaticGo myInit chunks

/-- The accumulation loop of `interpolateSqlIntoFragment`: delimited slots
use `escapeDelimitedValue`, top-level slots use the free-standing escape
guarded by `defangMergeHazard` against the accumulated output and the
following chunk. -/
def mysqlInterpolateGo (stringify fq : Bool) (result : Str) :
    List (Option Char) → List Str → List SqlValue → Str
  | d :: ds, chunk :: cs, v :: vs =>
    let escaped :=
      match d with
      | some dl => mysqlEscapeDelimitedVal v dl fq
      | none => defangMergeHazard result (mysqlEscape stringify v) chunk
    mysqlInterpolateGo stringify fq (result ++ escaped ++ chunk) ds cs vs
  | _, _, _ => result

/-- `interpolateSqlIntoFragment` of src/index.js. -/
def mysqlInterpolate (stringify fq : Bool) (delims : List (Option Char))
    (chunks : List Str) (values : List SqlValue) : Str :=
  match chunks with
  | [] => []
  | c0 :: rest => mysqlInterpolateGo stringify fq c0 delims rest values

/-- The whole `sql` tag pipeline on prepared chunks: lex the statics, then
interpolate (the memoization layer caches the first stage unchanged). -/
def mysqlSqlTag (chunks : List Str) (values : List SqlValue) : Except Str Str :=
  match mysqlComputeStatic chunks with
  | .error m => .error m
  | .ok delims => .ok (mysqlInterpolate false false delims chunks values)

/-! ### Bridging lemmas between the JavaScript index arithmetic and list
predicates -/

theorem isLeadOf_iff (p s : Str) : isLeadOf p s = true ↔ p <+: s := by
  induction p generalizing s with
  | nil => simp [isLeadOf]
  | cons c p ih =>
    cases s with
    | nil => simp [isLeadOf, List.prefix_nil]
    | cons b s =>
      simp only [isLeadOf, Bool.and_eq_true, decide_eq_true_eq, ih,
        List.cons_prefix_cons]

theorem idxOfSub_none (s pat : Str) :
    idxOfSub s pat = none ↔ ∀ i, ¬ pat <+: s.drop i := by
  induction s with
  | nil =>
    rw [idxOfSub]
    split
    · rename_i h
      rw [isLeadOf_iff] at h
      simp only [List.drop_nil]
      constructor
      · intro hx; cases hx
      · intro hall; exact absurd h (hall 0)
    · rename_i h
      rw [isLeadOf_iff] at h
      simp only [List.drop_nil]
      exact ⟨fun _ _ => h, fun _ => by trivial⟩
  | cons c rest ih =>
    rw [idxOfSub]
    split
    · rename_i h
      rw [isLeadOf_iff] at h
      constructor
      · intro hx; cases hx
      · intro hall; exact absurd h (by simpa using hall 0)
    · rename_i h
      rw [isLeadOf_iff] at h
      rw [Option.map_eq_none', ih]
      constructor
      · intro hall i
        cases i with
        | zero => simpa using h
        | succ j => simpa using hall j
      · intro hall i
        simpa using hall (i + 1)

theorem idxOfSub_some (s pat : Str) :
    ∀ i, idxOfSub s pat = some i →
      pat <+: s.drop i ∧ ∀ j, j < i → ¬ pat <+: s.drop j := by
  induction s with
  | nil =>
    intro i h
    rw [idxOfSub] at h
    split at h
    · rename_i hl
      rw [isLeadOf_iff] at hl
      cases h
      exact ⟨hl, fun j hj => absurd hj (Nat.not_lt_zero j)⟩
    · cases h
  | cons c rest ih =>
    intro i h
    rw [idxOfSub] at h
    split at h
    · rename_i hl
      rw [isLeadOf_iff] at hl
      cases h
      exact ⟨hl, fun j hj => absurd hj (Nat.not_lt_zero j)⟩
    · rename_i hl
      rw [isLeadOf_iff] at hl
      rw [Option.map_eq_some'] at h
      obtain ⟨j, hj, rfl⟩ := h
      obtain ⟨h1, h2⟩ := ih j hj
      refine ⟨by simpa using h1, ?_⟩
      intro k hk
      cases k with
      | zero => simpa using hl
      | succ m => simpa using h2 m (by omega)

theorem lastIdxOfChar_none (s : Str) (c : Char) :
    lastIdxOfChar s c = none ↔ c ∉ s := by
  induction s with
  | nil => simp [lastIdxOfChar]
  | cons x rest ih =>
    rw [lastIdxOfChar]
    cases hr : lastIdxOfChar rest c with
    | some j =>
      simp only [hr]
      constructor
      · intro hx; cases hx
      · intro hx
        exact absurd (ih.mpr (fun hc => hx (List.mem_cons_of_mem _ hc))) (by simp [hr])
    | none =>
      have hce : c ∉ rest := ih.mp hr
      simp only [hr]
      split
      · rename_i hxc
        subst hxc
        simp
      · rename_i hxc
        simp only [List.mem_cons, not_or]
        constructor
        · intro _
          exact ⟨fun hcx => hxc hcx.symm, hce⟩
        · intro _
          trivial

theorem lastIdxOfChar_some (s : Str) (c : Char) :
    ∀ i, lastIdxOfChar s c = some i ↔ ∃ t, s.drop i = c :: t ∧ c ∉ t := by
  induction s with
  | nil =>
    intro i
    simp [lastIdxOfChar]
  | cons x rest ih =>
    intro i
    rw [lastIdxOfChar]
    cases hr : lastIdxOfChar rest c with
    | some j =>
      have hmem : c ∈ rest := by
        by_contra hc
        rw [← lastIdxOfChar_none rest c] at hc
        simp [hr] at hc
      simp only [hr]
      constructor
      · intro hx
        cases hx
        obtain ⟨t, ht, hnt⟩ := (ih j).mp hr
        exact ⟨t, by simpa using ht, hnt⟩
      · intro hx
        obtain ⟨t, ht, hnt⟩ := hx
        cases i with
        | zero =>
          simp at ht
          obtain ⟨hx1, hx2⟩ := ht
          subst hx1 hx2
          exact absurd hmem hnt
        | succ k =>
          simp only [List.drop_succ_cons] at ht
          have := (ih k).mpr ⟨t, ht, hnt⟩
          rw [hr] at this
          cases this
          rfl
    | none =>
      have hce : c ∉ rest := (lastIdxOfChar_none rest c).mp hr
      simp only [hr]
      split
      · rename_i hxc
        subst hxc
        constructor
        · intro hx
          cases hx
          exact ⟨rest, rfl, hce⟩
        · intro hx
          obtain ⟨t, ht, hnt⟩ := hx
          cases i with
          | zero => rfl
          | succ k =>
            simp only [List.drop_succ_cons] at ht
            have : lastIdxOfChar rest x = some k := (ih k).mpr ⟨t, ht, hnt⟩
            rw [hr] at this
            cases this
      · rename_i hxc
        constructor
        · intro hx; cases hx
        · intro hx
          obtain ⟨t, ht, hnt⟩ := hx
          cases i with
          | zero =>
            simp at ht
            exact absurd ht.1.symm (fun hh => hxc hh.symm)
          | succ k =>
            simp only [List.drop_succ_cons] at ht
            have : lastIdxOfChar rest c = some k := (ih k).mpr ⟨t, ht, hnt⟩
            rw [hr] at this
            cases this

/-! ### C10: degenerate inputs escape to the empty string -/

theorem objectToValuesV_callable (eid es : Str → Str) :
    ∀ (entries : List (Str × SqlValue)) (wrote : Bool),
      (∀ p ∈ entries, ∃ s, p.2 = SqlValue.vfunc s) →
      objectToValuesV eid es entries wrote = [] := by
  intro entries
  induction entries with
  | nil => intro wrote _; rfl
  | cons p rest ih =>
    intro wrote h
    obtain ⟨s, hs⟩ := h p (List.mem_cons_self p rest)
    obtain ⟨k, v⟩ := p
    dsimp at hs
    subst hs
    rw [objectToValuesV]
    exact ih wrote (fun q hq => h q (List.mem_cons_of_mem _ hq))

/-- C10: for either dialect, free-standing escaping of an empty ordered
sequence is the empty string, and free-standing escaping of a keyed
mapping (with `stringifyObjects` unset) all of whose entry values are
callable is also the empty string, because callable-valued entries are
skipped. -/
theorem c10_degenerate_empty_outputs (entries : List (Str × SqlValue))
    (h : ∀ p ∈ entries, ∃ s, p.2 = SqlValue.vfunc s) :
    mysqlEscape false (SqlValue.vseries []) = [] ∧
    pgEscape false (SqlValue.vseries []) = [] ∧
    mysqlEscape false (SqlValue.vmap entries) = [] ∧
    pgEscape false (SqlValue.vmap entries) = [] := by
  refine ⟨rfl, rfl, ?_, ?_⟩
  · show escapeVal (mysqlEscapeIdStr false) mysqlEscapeString false (SqlValue.vmap entries) = []
    rw [escapeVal]
    simp only [Bool.false_eq_true, if_false]
    exact objectToValuesV_callable _ _ entries false h
  · show escapeVal (pgEscapeIdStr false false) pgEscapeString false (SqlValue.vmap entries) = []
    rw [escapeVal]
    simp only [Bool.false_eq_true, if_false]
    exact objectToValuesV_callable _ _ entries false h

/-- Witness for C10 at a concrete two-entry mapping of callables. -/
theorem c10_witness :
    mysqlEscape false (SqlValue.vseries []) = [] ∧
    pgEscape false (SqlValue.vseries []) = [] ∧
    mysqlEscape false (SqlValue.vmap [(['a'], SqlValue.vfunc ['f']), (['b'], SqlValue.vfunc ['g'])]) = [] ∧
    pgEscape false (SqlValue.vmap [(['a'], SqlValue.vfunc ['f']), (['b'], SqlValue.vfunc ['g'])]) = [] :=
  c10_degenerate_empty_outputs
    [(['a'], SqlValue.vfunc ['f']), (['b'], SqlValue.vfunc ['g'])]
    (by
      intro p hp
      simp only [List.mem_cons, List.not_mem_nil, or_false] at hp
      rcases hp with rfl | rfl
      · exact ⟨['f'], rfl⟩
      · exact ⟨['g'], rfl⟩)

/-! ### C4: row-group rendering of ordered sequences -/

mutual

/-- Modelled from the claim C4 wording: inside a row group, a nested
sequence is NOT itself parenthesized as a further row group — its elements
are simply joined (one level of grouping only). -/
def c4FlatItem : SqlValue → Str
  | .vseries l => c4FlatJoin l
  | v => mysqlEscape true v

/-- Comma join for `c4FlatItem`. -/
def c4FlatJoin : List SqlValue → Str
  | [] => []
  | [v] => c4FlatItem v
  | v :: rest => c4FlatItem v ++ ", ".toList ++ c4FlatJoin rest

end

/-- Modelled from the claim C4 wording: the top-level sequence joins its
elements with a comma, parenthesizing an element that is itself a
sequence, the grouping applying at exactly one level. -/
def c4OneLevelItem : SqlValue → Str
  | .vseries l => '(' :: (c4FlatJoin l ++ [')'])
  | v => mysqlEscape true v

/-- The claim-C4 rendering of a sequence value. -/
def c4OneLevelRender : List SqlValue → Str
  | [] => []
  | [v] => c4OneLevelItem v
  | v :: rest => c4OneLevelItem v ++ ", ".toList ++ c4OneLevelRender rest

/-- Counterexample to C4 as stated: on `[[[1]]]` the code parenthesizes the
inner sequence again, giving `((1))`, while the claimed one-level grouping
gives `(1)`. -/
theorem c4_counterexample :
    mysqlEscape false (SqlValue.vseries [.vseries [.vseries [.vnum ['1']]]]) = "((1))".toList ∧
    c4OneLevelRender [.vseries [.vseries [.vnum ['1']]]] = "(1)".toList ∧
    ("((1))".toList : Str) ≠ "(1)".toList :=
  ⟨rfl, rfl, by decide⟩

mutual

/-- The amended rendering: elements joined with a comma and space, and an
element that is itself a sequence is parenthesized as a row group at every
nesting depth. -/
def seriesSpecItem (eid es : Str → Str) : SqlValue → Str
  | .vseries m => '(' :: (seriesSpecJoin eid es m ++ [')'])
  | v => escapeVal eid es true v

/-- Comma join for `seriesSpecItem`. -/
def seriesSpecJoin (eid es : Str → Str) : List SqlValue → Str
  | [] => []
  | [v] => seriesSpecItem eid es v
  | v :: rest => seriesSpecItem eid es v ++ ", ".toList ++ seriesSpecJoin eid es rest

end

/-- The comma-join preceded by a separator when non-empty (the shape of
`escapeSeries` output when something was already written). -/
def seriesSpecTail (eid es : Str → Str) : List SqlValue → Str
  | [] => []
  | v :: rest => ", ".toList ++ seriesSpecJoin eid es (v :: rest)

mutual

/-- Size of a value counting through nested sequences. -/
def svSize : SqlValue → Nat
  | .vseries l => 1 + svlSize l
  | _ => 1

/-- Size of a value list counting through nested sequences. -/
def svlSize : List SqlValue → Nat
  | [] => 0
  | v :: r => 1 + svSize v + svlSize r

end

theorem escapeSeriesV_cons_series (eid es : Str → Str) (m : List SqlValue)
    (rest : List SqlValue) (wrote : Bool) :
    escapeSeriesV eid es true (.vseries m :: rest) wrote =
      ((if wrote then ", (".toList else ['(']) ++
        escapeSeriesV eid es true m false ++ [')']) ++
        escapeSeriesV eid es true rest true := rfl

theorem escapeSeriesV_cons_other (eid es : Str → Str) (v : SqlValue)
    (rest : List SqlValue) (wrote : Bool) (hv : ∀ m, v ≠ SqlValue.vseries m) :
    escapeSeriesV eid es true (v :: rest) wrote =
      ((if wrote then ", ".toList else []) ++ escapeVal eid es true v) ++
        escapeSeriesV eid es true rest true := by
  cases v
  case vseries m => exact absurd rfl (hv m)
  all_goals rfl

theorem seriesSpecItem_other (eid es : Str → Str) (v : SqlValue)
    (hv : ∀ m, v ≠ SqlValue.vseries m) :
    seriesSpecItem eid es v = escapeVal eid es true v := by
  cases v
  case vseries m => exact absurd rfl (hv m)
  all_goals rfl

theorem seriesSpecJoin_cons (eid es : Str → Str) (v : SqlValue) (rest : List SqlValue) :
    seriesSpecJoin eid es (v :: rest) =
      seriesSpecItem eid es v ++ seriesSpecTail eid es rest := by
  cases rest with
  | nil => simp [seriesSpecJoin, seriesSpecTail]
  | cons w r2 => simp [seriesSpecJoin, seriesSpecTail, List.append_assoc]

theorem svSize_pos (v : SqlValue) : 1 ≤ svSize v := by
  cases v <;> simp [svSize]

theorem c4_bridge (eid es : Str → Str) :
    ∀ n, ∀ l : List SqlValue, svlSize l ≤ n →
      escapeSeriesV eid es true l false = seriesSpecJoin eid es l ∧
      escapeSeriesV eid es true l true = seriesSpecTail eid es l := by
  intro n
  induction n with
  | zero =>
    intro l hl
    cases l with
    | nil => exact ⟨rfl, rfl⟩
    | cons v r =>
      rw [svlSize] at hl
      omega
  | succ n ih =>
    intro l hl
    cases l with
    | nil => exact ⟨rfl, rfl⟩
    | cons v r =>
      have hsz : svlSize r ≤ n := by
        rw [svlSize] at hl
        have := svSize_pos v
        omega
      obtain ⟨ihr1, ihr2⟩ := ih r hsz
      rw [seriesSpecTail, seriesSpecJoin_cons]
      by_cases hv : ∃ m, v = SqlValue.vseries m
      · obtain ⟨m, rfl⟩ := hv
        have hszm : svlSize m ≤ n := by
          rw [svlSize, svSize] at hl
          omega
        obtain ⟨ihm1, _⟩ := ih m hszm
        rw [escapeSeriesV_cons_series, escapeSeriesV_cons_series, ihm1, ihr2,
          seriesSpecItem]
        simp [List.append_assoc]
      · have hv2 : ∀ m, v ≠ SqlValue.vseries m := fun m hm => hv ⟨m, hm⟩
        rw [escapeSeriesV_cons_other _ _ _ _ _ hv2, escapeSeriesV_cons_other _ _ _ _ _ hv2,
          ihr2, seriesSpecItem_other _ _ _ hv2]
        simp [List.append_assoc]

/-- C4 amended: escaping an ordered sequence joins the escapes of its
elements with a comma and space, and an element that is itself a sequence
is parenthesized as a row group — recursively, at every nesting depth (not
at one level only as the claim stated). -/
theorem c4_series_rendering (eid es : Str → Str) (st : Bool) (l : List SqlValue) :
    escapeVal eid es st (SqlValue.vseries l) = seriesSpecJoin eid es l := by
  rw [escapeVal]
  exact (c4_bridge eid es (svlSize l) l (Nat.le_refl _)).1

/-! ### C6: the Postgres free-standing string form -/

theorem emapPgE_nonspecial (c : Char) (h : ¬ specialChar c = true) : emapPgE c = [c] := by
  simp only [specialChar, decide_eq_true_eq, not_or] at h
  obtain ⟨h1, h2, h3, h4, h5, h6, h7, h8, h9, h10⟩ := h
  simp [emapPgE, h1, h2, h3, h4, h5, h6, h7, h8, h9, h10]

theorem emapPgE_special_len (c : Char) (h : specialChar c = true) :
    2 ≤ (emapPgE c).length := by
  simp only [specialChar, decide_eq_true_eq] at h
  rcases h with rfl | rfl | rfl | rfl | rfl | rfl | rfl | rfl | rfl | rfl
  all_goals decide

theorem escBody_len_ge (s : Str) : s.length ≤ (escBodyWith emapPgE s).length := by
  induction s with
  | nil => simp [escBodyWith]
  | cons c rest ih =>
    simp only [escBodyWith, List.flatMap_cons, List.length_append, List.length_cons]
    have : 1 ≤ (emapPgE c).length := by
      by_cases h : specialChar c = true
      · have := emapPgE_special_len c h
        omega
      · rw [emapPgE_nonspecial c h]
        simp
    simp only [escBodyWith] at ih
    omega

theorem pg_body_eq_iff (s : Str) :
    pgEscapeStringBody emapPgE s = s ↔ ∀ c ∈ s, ¬ specialChar c = true := by
  induction s with
  | nil => simp [pgEscapeStringBody, escBodyWith]
  | cons c rest ih =>
    simp only [pgEscapeStringBody, escBodyWith, List.flatMap_cons] at ih ⊢
    constructor
    · intro heq
      by_cases h : specialChar c = true
      · exfalso
        have hlen1 := emapPgE_special_len c h
        have hlen2 := escBody_len_ge rest
        simp only [escBodyWith] at hlen2
        have := congrArg List.length heq
        simp only [List.length_append, List.length_cons] at this
        omega
      · rw [emapPgE_nonspecial c h] at heq
        simp only [List.cons_append, List.nil_append, List.cons.injEq, true_and] at heq
        intro x hx
        rcases List.mem_cons.mp hx with rfl | hx2
        · exact h
        · exact ih.mp heq x hx2
    · intro hall
      rw [emapPgE_nonspecial c (hall c (List.mem_cons_self c rest))]
      simp only [List.cons_append, List.nil_append, List.cons.injEq, true_and]
      exact ih.mpr (fun x hx => hall x (List.mem_cons_of_mem _ hx))

/-- Counterexample to C6 as stated: a string whose only character needing
treatment is a single quote DOES get the `e` prefix — the escaped body
(quote doubled) differs from the input, which triggers the `e` branch. -/
theorem c6_counterexample :
    pgEscapeString [sqc] = ['e', sqc, sqc, sqc, sqc] ∧
    (pgEscapeString [sqc]).head? = some 'e' ∧
    (pgEscapeString [sqc]).head? ≠ some sqc :=
  ⟨rfl, rfl, by decide⟩

/-- C6 amended: the Postgres free-standing string escaper returns the
plain quoted literal exactly when no character of the input is in the
escape class, and switches to the `e`-prefixed form exactly when some
character needed escaping — including when that character is a lone
single quote.  Both directions hold: the output shapes characterise the
two cases. -/
theorem c6_pg_string_form (s : Str) :
    ((∀ c ∈ s, ¬ specialChar c = true) ↔ pgEscapeString s = sqc :: s ++ [sqc]) ∧
    ((∃ c ∈ s, specialChar c = true) ↔
      pgEscapeString s = 'e' :: sqc :: pgEscapeStringBody emapPgE s ++ [sqc]) := by
  have hplain : (∀ c ∈ s, ¬ specialChar c = true) →
      pgEscapeString s = sqc :: s ++ [sqc] := by
    intro h
    have hb := (pg_body_eq_iff s).mpr h
    rw [pgEscapeString]
    simp [hb]
  have hesc : (∃ c ∈ s, specialChar c = true) →
      pgEscapeString s = 'e' :: sqc :: pgEscapeStringBody emapPgE s ++ [sqc] := by
    intro h
    have hb : ¬ pgEscapeStringBody emapPgE s = s := by
      intro he
      obtain ⟨c, hc, hspec⟩ := h
      exact absurd hspec (pg_body_eq_iff s |>.mp he c hc)
    rw [pgEscapeString]
    simp [hb]
  constructor
  · constructor
    · exact hplain
    · intro heq
      by_contra hno
      push_neg at hno
      obtain ⟨c, hc, hspec⟩ := hno
      have := hesc ⟨c, hc, by simpa using hspec⟩
      rw [heq] at this
      have hhead := congrArg List.head? this
      simp at hhead
      revert hhead
      decide
  · constructor
    · exact hesc
    · intro heq
      by_cases hall : ∀ c ∈ s, ¬ specialChar c = true
      · have := hplain hall
        rw [heq] at this
        have hhead := congrArg List.head? this
        simp at hhead
        exact absurd hhead (by decide)
      · push_neg at hall
        obtain ⟨c, hc, hspec⟩ := hall
        exact ⟨c, hc, by simpa using hspec⟩

/-- Witness for C6 at a plain string and at a lone single quote. -/
theorem c6_witness :
    pgEscapeString ['a', 'b'] = sqc :: ['a', 'b'] ++ [sqc] ∧
    pgEscapeString [sqc] = 'e' :: sqc :: pgEscapeStringBody emapPgE [sqc] ++ [sqc] :=
  ⟨(c6_pg_string_form ['a', 'b']).1.mp (by decide),
    (c6_pg_string_form [sqc]).2.mp ⟨sqc, by decide, by decide⟩⟩

/-! ### C1: merge-hazard defense for free-standing slots -/

/-- Modelled from the claim C1 wording: insert a space before whenever the
escaped value starts with a quote character equal to the last character of
the preceding text, and a space after whenever it ends with a quote
character equal to the first character of the following chunk. -/
def c1ClaimDefang (before escaped after : Str) : Str :=
  (match escaped.head? with
   | some h => if (h = dqc ∨ h = sqc ∨ h = bqc) ∧ before.getLast? = some h then [' '] else []
   | none => []) ++ escaped ++
  (match escaped.getLast? with
   | some l => if (l = dqc ∨ l = sqc ∨ l = bqc) ∧ after.head? = some l then [' '] else []
   | none => [])

/-- Counterexample to C1 as stated: the free-standing escape of the series
`["a", 1]` starts with a quote equal to the quote ending the preceding
text but does not end in a quote, so the code inserts no space, while the
claim requires one. -/
theorem c1_counterexample :
    mysqlEscape false (.vseries [.vstr ['a'], .vnum ['1']]) = [sqc, 'a', sqc, ',', ' ', '1'] ∧
    defangMergeHazard [sqc] [sqc, 'a', sqc, ',', ' ', '1'] [] = [sqc, 'a', sqc, ',', ' ', '1'] ∧
    c1ClaimDefang [sqc] [sqc, 'a', sqc, ',', ' ', '1'] [] =
      ' ' :: [sqc, 'a', sqc, ',', ' ', '1'] ∧
    defangMergeHazard [sqc] [sqc, 'a', sqc, ',', ' ', '1'] [] ≠
      c1ClaimDefang [sqc] [sqc, 'a', sqc, ',', ' ', '1'] [] :=
  ⟨rfl, rfl, rfl, by decide⟩

/-- Modelled from the amended claim C1: the defense applies only when the
escaped value ends with a quote character; then a space is prepended
exactly when that same character also begins the escaped value and equals
the last character of the accumulated output, and a space is appended
exactly when it equals the first character of the following chunk. -/
def c1AmendedDefang (before escaped after : Str) : Str :=
  match escaped.getLast? with
  | some q =>
    if q = dqc ∨ q = sqc ∨ q = bqc then
      (if escaped.head? = some q ∧ before.getLast? = some q then [' '] else []) ++
        escaped ++ (if after.head? = some q then [' '] else [])
    else escaped
  | none => escaped

/-- C1 amended: the driver defense equals the ends-with-a-quote-gated
rule, and on the claim scenarios: two adjacent free-standing strings are
space-separated, while the quoted literal text stays untouched. -/
theorem c1_defense (before escaped after : Str) :
    defangMergeHazard before escaped after = c1AmendedDefang before escaped after ∧
    mysqlSqlTag ["SELECT ".toList, [], []] [.vstr ['a'], .vstr ['b']] =
      .ok ("SELECT ".toList ++ [sqc, 'a', sqc, ' ', sqc, 'b', sqc]) ∧
    mysqlSqlTag [("SELECT ".toList ++ [sqc, 'a', sqc, sqc, 'b', sqc])] [] =
      .ok ("SELECT ".toList ++ [sqc, 'a', sqc, sqc, 'b', sqc]) := by
  refine ⟨?_, rfl, rfl⟩
  rw [defangMergeHazard, c1AmendedDefang]
  cases hl : escaped.getLast? with
  | none => simp only [hl]
  | some q =>
    simp only [hl]
    by_cases hq : q = dqc ∨ q = sqc ∨ q = bqc
    · rw [if_neg (not_not_intro hq), if_pos hq]
      by_cases h1 : escaped.head? = some q ∧ before.getLast? = some q <;>
        by_cases h2 : after.head? = some q <;>
          simp [h1, h2]
    · rw [if_pos hq, if_neg hq]


/-! ### C7: dollar-quote chunk-boundary merge hazards -/

theorem pgLexChunk_cons (st : PgL) (c : Char) (rest : Str) :
    pgLexChunk st (c :: rest) =
      match pgConsumeFromLeft st (c :: rest) with
      | .ok x => pgLexLoopF (2 * rest.length + 3) x.1 x.2.1 x.2.2
      | .error m => .error m := by
  have h : 2 * (c :: rest).length + 2 = (2 * rest.length + 3) + 1 := by
    simp [List.length_cons]
    omega
  rw [pgLexChunk, h, pgLexLoopF.eq_def]
  cases hc : pgConsumeFromLeft st (c :: rest) with
  | ok x => simp [hc]
  | error m => simp [hc]

theorem pgLexLoopF_nil (fuel : Nat) (st : PgL) (acc : Nat) :
    pgLexLoopF (fuel + 1) st [] acc = .ok (st, acc) := rfl

/-- Evaluation of one `pgFeed` call in a dollar-quote state with the
ambiguity flag clear: the dollar handler's verdict on the chunk decides
the call. -/
theorem pgFeed_dollar_step (d : Str) (calls : Nat) (b : Bool) (c : Char) (rest : Str)
    (hd2 : d.getLast? = some '$') (hnoamb : ¬(b = true ∧ 1 < calls)) :
    (∀ m, pgDollarHandler d (c :: rest) = .error m →
      pgFeed ⟨none, ⟨some d, b, calls⟩⟩ (some (c :: rest)) =
        (.error m, ⟨some m, ⟨some d, b, calls⟩⟩)) ∧
    (∀ d2 k, pgDollarHandler d (c :: rest) = .ok (d2, [], k) →
      pgFeed ⟨none, ⟨some d, b, calls⟩⟩ (some (c :: rest)) =
        (.ok d2, ⟨none, ⟨d2, false, calls + 1⟩⟩)) := by
  have hneg : ¬(b = true ∧ calls + 1 - 1 > 1) := by simpa using hnoamb
  constructor
  · intro m hm
    rw [pgFeed]
    simp only []
    rw [pgLexInner]
    simp only [if_neg hneg]
    rw [pgLexChunk_cons, pgConsumeFromLeft]
    simp only [pgHandle, hd2, hm, ite_self]
  · intro d2 k hm
    rw [pgFeed]
    simp only []
    rw [pgLexInner]
    simp only [if_neg hneg]
    rw [pgLexChunk_cons, pgConsumeFromLeft]
    simp only [pgHandle, hd2, hm, ite_self]
    rw [show (2 * rest.length + 3) = (2 * rest.length + 2) + 1 from rfl, pgLexLoopF_nil]
    simp +decide

/-- Counterexample to C7 as stated: the dollar-quote dichotomy
(merge-hazard error or silent stay) does not hold on every reachable
dollar-quote state.  After the chunks `x` and `\n$foo$` the lexer is
inside `$foo$` with the continuation-ambiguity flag set and two calls
made; the next chunk `ab` contains neither the closing tag nor any
dollar, yet the call throws the ambiguity error instead of staying in the
context. -/
theorem c7_counterexample :
    pgFeedAll pgInit [['x'], [lfc, '$', 'f', 'o', 'o', '$']] =
      .ok ⟨none, ⟨some ['$', 'f', 'o', 'o', '$'], true, 2⟩⟩ ∧
    idxOfSub ['a', 'b'] ['$', 'f', 'o', 'o', '$'] = none ∧
    '$' ∉ (['a', 'b'] : Str) ∧
    pgFeed ⟨none, ⟨some ['$', 'f', 'o', 'o', '$'], true, 2⟩⟩ (some ['a', 'b']) =
      (.error ambiguousMsg,
        ⟨some ambiguousMsg, ⟨some ['$', 'f', 'o', 'o', '$'], true, 2⟩⟩) ∧
    isLeadOf ("merge hazard ".toList) ambiguousMsg = false :=
  ⟨rfl, rfl, by decide, rfl, rfl⟩

/-- C7 (amended): while the Postgres lexer is inside a dollar-quote
context `d` (`$tag$`-shaped), a chunk that nowhere contains the closing
tag is handled as follows.  If the continuation-ambiguity flag is set and
more than one chunk call was already made, the call throws the
ambiguous-continuation error before any dollar-quote processing.
Otherwise the claimed dichotomy holds: the call throws a merge-hazard
error when the chunk's suffix from its last dollar is a strict prefix of
the closing tag, and otherwise leaves the lexer in the same dollar-quote
context.  (Given that the tag occurs nowhere in the chunk, the suffix
cannot equal the whole tag, so prefix and strict prefix agree.) -/
theorem c7_dollar_merge_hazard (d chunk : Str) (calls : Nat) (b : Bool)
    (hd2 : d.getLast? = some '$')
    (hNoClose : ∀ i, ¬ d <+: chunk.drop i) :
    (b = true → 1 < calls →
      pgFeed ⟨none, ⟨some d, b, calls⟩⟩ (some chunk) =
        (.error ambiguousMsg, ⟨some ambiguousMsg, ⟨some d, b, calls⟩⟩)) ∧
    (¬(b = true ∧ 1 < calls) →
      (∀ ld t, chunk.drop ld = '$' :: t → '$' ∉ t →
        ((('$' :: t) <+: d ∧ ('$' :: t) ≠ d →
          ∃ m, (pgFeed ⟨none, ⟨some d, b, calls⟩⟩ (some chunk)).1 = .error m ∧
            "merge hazard ".toList <+: m) ∧
         (¬ (('$' :: t) <+: d) →
          pgFeed ⟨none, ⟨some d, b, calls⟩⟩ (some chunk) =
            (.ok (some d), ⟨none, ⟨some d, false, calls + 1⟩⟩)))) ∧
      ('$' ∉ chunk →
        pgFeed ⟨none, ⟨some d, b, calls⟩⟩ (some chunk) =
          (.ok (some d), ⟨none, ⟨some d, false, calls + 1⟩⟩))) := by
  have hidx : idxOfSub chunk d = none := (idxOfSub_none chunk d).mpr hNoClose
  constructor
  · intro hb hcalls
    have hcond : b = true ∧ calls + 1 - 1 > 1 := ⟨hb, by omega⟩
    rw [pgFeed]
    simp only []
    rw [pgLexInner]
    simp only [if_pos hcond]
  · intro hnoamb
    constructor
    · intro ld t hdrop hnot
      have hlast : lastIdxOfChar chunk '$' = some ld :=
        (lastIdxOfChar_some chunk '$' ld).mpr ⟨t, hdrop, hnot⟩
      have hchunk : chunk ≠ [] := by
        intro he
        rw [he] at hdrop
        simp at hdrop
      obtain ⟨c, rest, rfl⟩ := List.exists_cons_of_ne_nil hchunk
      constructor
      · rintro ⟨hpre, -⟩
        have hlead : isLeadOf ((c :: rest).drop ld) d = true := by
          rw [hdrop, isLeadOf_iff]
          exact hpre
        have hh : pgDollarHandler d (c :: rest) =
            .error ("merge hazard ".toList ++ sqc :: (c :: rest).drop ld ++
              sqc :: " at end of ".toList ++ d ++ " delimited string".toList) := by
          rw [pgDollarHandler, hidx]
          simp only [hlast]
          rw [if_pos hlead]
        have hfeed := (pgFeed_dollar_step d calls b c rest hd2 hnoamb).1 _ hh
        exact ⟨"merge hazard ".toList ++ sqc :: (c :: rest).drop ld ++
          sqc :: " at end of ".toList ++ d ++ " delimited string".toList,
          by rw [hfeed], ⟨_, rfl⟩⟩
      · intro hpre
        have hlead : ¬ isLeadOf ((c :: rest).drop ld) d = true := by
          rw [hdrop, isLeadOf_iff]
          exact hpre
        have hh : pgDollarHandler d (c :: rest) = .ok (some d, [], 0) := by
          rw [pgDollarHandler, hidx]
          simp only [hlast]
          rw [if_neg hlead]
        exact (pgFeed_dollar_step d calls b c rest hd2 hnoamb).2 _ _ hh
    · intro hdollar
      have hlast : lastIdxOfChar chunk '$' = none := (lastIdxOfChar_none chunk '$').mpr hdollar
      cases chunk with
      | nil =>
        have hneg : ¬(b = true ∧ 0 + 1 - 1 > 1) := by simp
        rw [pgFeed]
        simp only []
        rw [pgLexInner]
        simp only [if_neg (by simpa using hnoamb : ¬(b = true ∧ calls + 1 - 1 > 1))]
        rw [pgLexChunk]
        simp only [List.length_nil]
        rw [show 2 * 0 + 2 = 1 + 1 from rfl, pgLexLoopF_nil]
        rfl
      | cons c rest =>
        have hh : pgDollarHandler d (c :: rest) = .ok (some d, [], 0) := by
          rw [pgDollarHandler, hidx]
          simp only [hlast]
        exact (pgFeed_dollar_step d calls b c rest hd2 hnoamb).2 _ _ hh

/-- Witness for C7: `$foo$` context; with the ambiguity flag clear, the
chunk `ab$fo` ends in a strict prefix of the tag and errors while the
dollar-free chunk `xy` stays in the context; with the flag set after two
calls, the dollar-free chunk `ab` throws the ambiguity error. -/
theorem c7_witness :
    (∃ m, (pgFeed ⟨none, ⟨some ['$', 'f', 'o', 'o', '$'], false, 1⟩⟩
        (some ['a', 'b', '$', 'f', 'o'])).1 = .error m ∧
        "merge hazard ".toList <+: m) ∧
    pgFeed ⟨none, ⟨some ['$', 'f', 'o', 'o', '$'], false, 1⟩⟩ (some ['x', 'y']) =
      (.ok (some ['$', 'f', 'o', 'o', '$']),
        ⟨none, ⟨some ['$', 'f', 'o', 'o', '$'], false, 2⟩⟩) ∧
    pgFeed ⟨none, ⟨some ['$', 'f', 'o', 'o', '$'], true, 2⟩⟩ (some ['a', 'b']) =
      (.error ambiguousMsg,
        ⟨some ambiguousMsg, ⟨some ['$', 'f', 'o', 'o', '$'], true, 2⟩⟩) :=
  ⟨(((c7_dollar_merge_hazard ['$', 'f', 'o', 'o', '$'] ['a', 'b', '$', 'f', 'o'] 1 false
      (by decide) ((idxOfSub_none _ _).mp (by decide))).2 (by simp)).1
      2 ['f', 'o'] (by decide) (by decide)).1 ⟨by decide, by decide⟩,
   ((c7_dollar_merge_hazard ['$', 'f', 'o', 'o', '$'] ['x', 'y'] 1 false
      (by decide) ((idxOfSub_none _ _).mp (by decide))).2 (by simp)).2 (by decide),
   (c7_dollar_merge_hazard ['$', 'f', 'o', 'o', '$'] ['a', 'b'] 2 true
      (by decide) ((idxOfSub_none _ _).mp (by decide))).1 rfl (by decide)⟩

/-! ### C3: sticky failure of both lexers -/

theorem myFeed_replay (s : MyState) (m : Str) (h : s.errorMessage = some m)
    (j : Option Str) : myFeed s j = (.error m, s) := by
  rw [myFeed.eq_def, h]

theorem myFeedText_error_state (s : MyState) (t : Str) (m : Str)
    (h : (myFeedText s t).1 = .error m) : (myFeedText s t).2.errorMessage = some m := by
  rw [myFeedText] at h ⊢
  cases hL : myLexLoop s.delim t with
  | ok x =>
    obtain ⟨d, n⟩ := x
    simp [hL] at h
  | error m1 =>
    simp only [hL] at h ⊢
    simp at h ⊢
    first
      | exact h
      | exact h.symm

theorem myFeed_error_state (s : MyState) (i : Option Str) (m : Str)
    (h : (myFeed s i).1 = .error m) : (myFeed s i).2.errorMessage = some m := by
  rw [myFeed.eq_def] at h ⊢
  cases hE : s.errorMessage with
  | some m0 =>
    simp only [hE] at h ⊢
    simp at h
    rw [h]
  | none =>
    simp only [hE] at h ⊢
    cases i with
    | none =>
      cases hD : s.delim with
      | some d =>
        simp only [hD] at h ⊢
        simp at h ⊢
        first
          | exact h
          | exact h.symm
      | none =>
        simp only [hD] at h ⊢
        exact myFeedText_error_state s _ m h
    | some t => exact myFeedText_error_state s t m h

theorem pgFeed_replay (s : PgState) (m : Str) (h : s.msg = some m)
    (j : Option Str) : pgFeed s j = (.error m, s) := by
  rw [pgFeed, h]

theorem pgFeed_error_state (s : PgState) (i : Option Str) (m : Str)
    (h : (pgFeed s i).1 = .error m) : (pgFeed s i).2.msg = some m := by
  rw [pgFeed] at h ⊢
  cases hE : s.msg with
  | some m0 =>
    simp only [hE] at h ⊢
    simp at h
    rw [h]
  | none =>
    simp only [hE] at h ⊢
    cases hL : pgLexInner s.inner i with
    | ok x => simp [hL] at h
    | error m1 =>
      simp only [hL] at h ⊢
      simp at h ⊢
      first
        | exact h
        | exact h.symm

/-- C3: for both dialects, once a lexer call has thrown, every subsequent
call — on any argument — throws an error carrying the same message as the
first failure, and the state no longer changes. -/
theorem c3_sticky_failure :
    (∀ (s : MyState) (i : Option Str) (m : Str), (myFeed s i).1 = .error m →
      ∀ j, myFeed (myFeed s i).2 j = (.error m, (myFeed s i).2)) ∧
    (∀ (s : PgState) (i : Option Str) (m : Str), (pgFeed s i).1 = .error m →
      ∀ j, pgFeed (pgFeed s i).2 j = (.error m, (pgFeed s i).2)) :=
  ⟨fun s i m h j => myFeed_replay _ m (myFeed_error_state s i m h) j,
   fun s i m h j => pgFeed_replay _ m (pgFeed_error_state s i m h) j⟩

/-- Witness for C3: after a failing MySQL chunk (an unterminated hash
comment) and a failing Postgres chunk (an unterminated line comment), any
further call replays the identical message. -/
theorem c3_witness :
    myFeed (myFeed myInit (some ['#', 'x'])).2 (some ['o', 'k']) =
      (.error ("Expected delimiter at ".toList ++ jsonStr ['#', 'x']),
        (myFeed myInit (some ['#', 'x'])).2) ∧
    pgFeed (pgFeed pgInit (some ['-', '-', 'x'])).2 none =
      (.error ("Unterminated line comment: --".toList ++ ['x']),
        (pgFeed pgInit (some ['-', '-', 'x'])).2) :=
  ⟨c3_sticky_failure.1 myInit (some ['#', 'x']) _ rfl (some ['o', 'k']),
   c3_sticky_failure.2 pgInit (some ['-', '-', 'x']) _ rfl none⟩

/-! ### C2: the final `feed(null)` call checks for open constructs -/

theorem myFeedText_ok_state (s : MyState) (t : Str) (v : Option Char)
    (h : (myFeedText s t).1 = .ok v) : (myFeedText s t).2.errorMessage = none := by
  rw [myFeedText] at h ⊢
  cases hL : myLexLoop s.delim t with
  | ok x =>
    obtain ⟨d, n⟩ := x
    simp [hL]
  | error m1 => simp [hL] at h

theorem myFeed_ok_state (s : MyState) (i : Option Str) (v : Option Char)
    (h : (myFeed s i).1 = .ok v) : (myFeed s i).2.errorMessage = none := by
  rw [myFeed.eq_def] at h ⊢
  cases hE : s.errorMessage with
  | some m0 =>
    simp only [hE] at h
    simp at h
  | none =>
    simp only [hE] at h ⊢
    cases i with
    | none =>
      cases hD : s.delim with
      | some d =>
        simp only [hD] at h
        simp at h
      | none =>
        simp only [hD] at h ⊢
        exact myFeedText_ok_state s _ v h
    | some t => exact myFeedText_ok_state s t v h

theorem myFeedAll_ok_err : ∀ (cs : List Str) (s0 s : MyState),
    s0.errorMessage = none → myFeedAll s0 cs = .ok s → s.errorMessage = none := by
  intro cs
  induction cs with
  | nil =>
    intro s0 s h0 h
    simp only [myFeedAll] at h
    injection h with h
    subst h
    exact h0
  | cons c rest ih =>
    intro s0 s h0 h
    simp only [myFeedAll] at h
    cases hF : myFeed s0 (some c) with
    | mk r s1 =>
      cases r with
      | ok v =>
        simp only [hF] at h
        refine ih s1 s ?_ h
        have hv : (myFeed s0 (some c)).1 = .ok v := by rw [hF]
        have := myFeed_ok_state s0 (some c) v hv
        rwa [hF] at this
      | error m =>
        simp only [hF] at h
        exact absurd h (by simp)

theorem pgFeed_ok_state (s : PgState) (i : Option Str) (v : Option Str)
    (h : (pgFeed s i).1 = .ok v) : (pgFeed s i).2.msg = none := by
  rw [pgFeed] at h ⊢
  cases hE : s.msg with
  | some m0 =>
    simp only [hE] at h
    simp at h
  | none =>
    simp only [hE] at h ⊢
    cases hL : pgLexInner s.inner i with
    | ok x => simp [hL]
    | error m1 =>
      simp only [hL] at h
      simp at h

theorem pgFeedAll_ok_err : ∀ (cs : List Str) (s0 s : PgState),
    s0.msg = none → pgFeedAll s0 cs = .ok s → s.msg = none := by
  intro cs
  induction cs with
  | nil =>
    intro s0 s h0 h
    simp only [pgFeedAll] at h
    injection h with h
    subst h
    exact h0
  | cons c rest ih =>
    intro s0 s h0 h
    simp only [pgFeedAll] at h
    cases hF : pgFeed s0 (some c) with
    | mk r s1 =>
      cases r with
      | ok v =>
        simp only [hF] at h
        refine ih s1 s ?_ h
        have hv : (pgFeed s0 (some c)).1 = .ok v := by rw [hF]
        have := pgFeed_ok_state s0 (some c) v hv
        rwa [hF] at this
      | error m =>
        simp only [hF] at h
        exact absurd h (by simp)

/-- C2: after any chunk sequence accepted without error by a fresh lexer of
either dialect, a final call with `null` input returns without throwing when
no construct is open, and throws an unclosed-construct error naming the
still-open delimiter when one is (for Postgres, excepting the pure
continuation marker `e`, which denotes an already-closed string). -/
theorem c2_final_null :
    (∀ (cs : List Str) (s : MyState), myFeedAll myInit cs = .ok s →
      (s.delim = none → myFeed s none = (.ok none, ⟨none, none⟩)) ∧
      (∀ d, s.delim = some d →
        myFeed s none =
          (.error (unclosedMsg [d]), ⟨some (unclosedMsg [d]), some d⟩))) ∧
    (∀ (cs : List Str) (s : PgState), pgFeedAll pgInit cs = .ok s →
      (s.inner.delim = none → (pgFeed s none).1 = .ok none) ∧
      (∀ d, s.inner.delim = some d → d ≠ ['e'] →
        (pgFeed s none).1 = .error (unclosedMsg d))) := by
  constructor
  · intro cs s hAll
    have hErr : s.errorMessage = none := myFeedAll_ok_err cs myInit s rfl hAll
    obtain ⟨em, dl⟩ := s
    have hErr2 : em = none := hErr
    subst hErr2
    constructor
    · intro hD
      have hD2 : dl = none := hD
      subst hD2
      rfl
    · intro d hD
      have hD2 : dl = some d := hD
      subst hD2
      rfl
  · intro cs s hAll
    have hMsg : s.msg = none := pgFeedAll_ok_err cs pgInit s rfl hAll
    obtain ⟨msg, inner⟩ := s
    have hMsg2 : msg = none := hMsg
    subst hMsg2
    obtain ⟨dl, ca, k⟩ := inner
    constructor
    · intro hD
      have hD2 : dl = none := hD
      subst hD2
      rfl
    · intro d hD hde
      have hD2 : dl = some d := hD
      subst hD2
      simp [pgFeed, pgLexInner, hde]

/-- Witness for C2: a plain chunk leaves both lexers closed and the final
`null` call succeeds; a chunk opening a single-quoted string leaves a
delimiter open and the final `null` call throws naming that delimiter. -/
theorem c2_witness :
    myFeed (⟨none, none⟩ : MyState) none = (.ok none, ⟨none, none⟩) ∧
    myFeed (⟨none, some sqc⟩ : MyState) none =
      (.error (unclosedMsg [sqc]), ⟨some (unclosedMsg [sqc]), some sqc⟩) ∧
    (pgFeed (⟨none, ⟨none, false, 1⟩⟩ : PgState) none).1 = .ok none ∧
    (pgFeed (⟨none, ⟨some [sqc], false, 1⟩⟩ : PgState) none).1 =
      .error (unclosedMsg [sqc]) :=
  ⟨(c2_final_null.1 [['x']] ⟨none, none⟩ rfl).1 rfl,
   (c2_final_null.1 [[sqc, 'a']] ⟨none, some sqc⟩ rfl).2 sqc rfl,
   (c2_final_null.2 [['x']] ⟨none, ⟨none, false, 1⟩⟩ rfl).1 rfl,
   (c2_final_null.2 [[sqc, 'a']] ⟨none, ⟨some [sqc], false, 1⟩⟩ rfl).2
     [sqc] rfl (by decide)⟩

/-! ### C8: block-comment nesting -/

/-- `n` consecutive block-comment openers. -/
def c8opens : Nat → Str
  | 0 => []
  | n + 1 => '/' :: '*' :: c8opens n

/-- `n` consecutive block-comment closers. -/
def c8closes : Nat → Str
  | 0 => []
  | n + 1 => '*' :: '/' :: c8closes n

theorem c8opens_length : ∀ n, (c8opens n).length = 2 * n := by
  intro n
  induction n with
  | zero => rfl
  | succ k ih =>
    simp only [c8opens, List.length_cons, ih]
    omega

theorem c8closes_length : ∀ n, (c8closes n).length = 2 * n := by
  intro n
  induction n with
  | zero => rfl
  | succ k ih =>
    simp only [c8closes, List.length_cons, ih]
    omega

theorem findStarSlash_append_close : ∀ s : Str, findStarSlash s = none →
    findStarSlash (s ++ ['*', '/']) = some s.length := by
  intro s
  induction s with
  | nil =>
    intro _
    rfl
  | cons c rest ih =>
    intro h
    rw [List.cons_append]
    simp only [findStarSlash] at h ⊢
    by_cases hcond : c = '*' ∧ rest.head? = some '/'
    · rw [if_pos hcond] at h
      exact absurd h (by simp)
    · rw [if_neg hcond] at h
      have hrest : findStarSlash rest = none := by
        cases hx : findStarSlash rest
        · rfl
        · rw [hx] at h
          simp at h
      have hcf : ¬(c = '*' ∧ (rest ++ ['*', '/']).head? = some '/') := by
        cases rest with
        | nil =>
          intro hc
          simp at hc
        | cons r tl =>
          intro hc
          exact hcond (by simpa using hc)
      rw [if_neg hcf, ih hrest]
      simp

theorem blockLoopF_balanced : ∀ (fuel n depth : Nat), 1 ≤ depth → 2 * n + depth < fuel →
    blockLoopF fuel depth (c8opens n ++ c8closes (depth + n)) = .ok [] := by
  intro fuel
  induction fuel with
  | zero =>
    intro n depth h1 h2
    omega
  | succ f ih =>
    intro n depth h1 h2
    cases n with
    | zero =>
      cases depth with
      | zero => omega
      | succ d =>
        cases d with
        | zero => simp [c8opens, c8closes, blockLoopF, blockScan]
        | succ e =>
          have hrec := ih 0 (e + 1) (by omega) (by omega)
          simp only [c8opens, c8closes, List.nil_append, blockLoopF, blockScan] at hrec ⊢
          simp at hrec ⊢
          exact hrec
    | succ k =>
      have harg : depth + (k + 1) = (depth + 1) + k := by omega
      rw [harg]
      have hrec := ih k (depth + 1) (by omega) (by omega)
      simp only [c8opens, List.cons_append, blockLoopF, blockScan] at hrec ⊢
      simp at hrec ⊢
      exact hrec

theorem blockLoopF_unbalanced : ∀ (fuel n depth : Nat), 1 ≤ depth → 2 * n + depth < fuel →
    blockLoopF fuel depth (c8opens n ++ (c8closes (n + depth - 1) ++ [' '])) =
      .error ("unterminated".toList) := by
  intro fuel
  induction fuel with
  | zero =>
    intro n depth h1 h2
    omega
  | succ f ih =>
    intro n depth h1 h2
    cases n with
    | zero =>
      cases depth with
      | zero => omega
      | succ d =>
        cases d with
        | zero => simp [c8opens, c8closes, blockLoopF, blockScan]
        | succ e =>
          have hrec := ih 0 (e + 1) (by omega) (by omega)
          have harg : 0 + (e + 1) - 1 = e := by omega
          have harg2 : 0 + (e + 1 + 1) - 1 = e + 1 := by omega
          rw [harg] at hrec
          rw [harg2]
          simp only [c8opens, c8closes, List.nil_append, List.cons_append,
            blockLoopF, blockScan] at hrec ⊢
          simp at hrec ⊢
          exact hrec
    | succ k =>
      have hrec := ih k (depth + 1) (by omega) (by omega)
      have harg : k + (depth + 1) - 1 = k + 1 + depth - 1 := by omega
      rw [harg] at hrec
      simp only [c8opens, List.cons_append, blockLoopF, blockScan] at hrec ⊢
      simp at hrec ⊢
      exact hrec

theorem mysqlTopRemF_nil : ∀ f, mysqlTopRemF f [] = [] := by
  intro f
  cases f with
  | zero => rfl
  | succ k => rfl

/-- Counterexample to C8: after the single chunk `/* /* */` the MySQL lexer
is back at top level with no open context (its lazy block-comment pattern
closed at the first `*/`), and the Postgres lexer has thrown an
unterminated-block-comment error (its depth counter is still positive at
the chunk end) — in neither dialect does the lexer sit in a still-open
block-comment state. -/
theorem c8_counterexample :
    myFeedAll myInit [['/', '*', ' ', '/', '*', ' ', '*', '/']] =
      .ok ⟨none, none⟩ ∧
    (pgFeed pgInit (some ['/', '*', ' ', '/', '*', ' ', '*', '/'])).1 =
      .error ("Unterminated block comment: /* /* */".toList) :=
  ⟨rfl, rfl⟩

/-- C8 (amended): only the Postgres lexer counts block-comment nesting
depth, and it requires the comment to close within the chunk: a chunk
opening with `/*` followed by `n` further openers needs `n + 1` closers to
be accepted, and with only `n` closers it throws an
unterminated-block-comment error; the MySQL lexer does not nest at all —
its block comment closes at the first `*/` no matter how many `/*` occur
in between. -/
theorem c8_block_nesting :
    (∀ n : Nat,
      pgBlockHandler (c8opens n ++ c8closes (n + 1)) = .ok (none, [], 1)) ∧
    (∀ n : Nat,
      pgBlockHandler (c8opens n ++ (c8closes n ++ [' '])) =
        .error ("Unterminated block comment: /*".toList ++
          (c8opens n ++ (c8closes n ++ [' '])))) ∧
    (∀ s : Str, findStarSlash s = none →
      mysqlTopRem ('/' :: '*' :: (s ++ ['*', '/'])) = []) := by
  refine ⟨?_, ?_, ?_⟩
  · intro n
    rw [pgBlockHandler]
    have harg : n + 1 = 1 + n := by omega
    rw [harg, blockLoopF_balanced _ n 1 (by omega)
      (by simp [c8opens_length, c8closes_length] <;> omega)]
  · intro n
    rw [pgBlockHandler]
    have harg : c8closes n = c8closes (n + 1 - 1) := by norm_num
    rw [harg, blockLoopF_unbalanced _ n 1 (by omega)
      (by simp [c8opens_length, c8closes_length] <;> omega)]
  · intro s h
    rw [mysqlTopRem]
    have hlen : ('/' :: '*' :: (s ++ ['*', '/'])).length + 1 = (s.length + 4) + 1 := by
      simp
    rw [hlen, mysqlTopRemF, findStarSlash_append_close s h]
    have hdrop : (s ++ ['*', '/']).drop (s.length + 2) = [] := by
      apply List.drop_eq_nil_of_le
      simp
    show mysqlTopRemF (s.length + 4) ((s ++ ['*', '/']).drop (s.length + 2)) = []
    rw [hdrop]
    exact mysqlTopRemF_nil _

/-- Witness for C8: one extra opener inside the comment — three closers
needed for Postgres and rejected with only two, while MySQL closes the very
same nested text at its first `*/`. -/
theorem c8_witness :
    pgBlockHandler (c8opens 1 ++ c8closes 2) = .ok (none, [], 1) ∧
    pgBlockHandler (c8opens 1 ++ (c8closes 1 ++ [' '])) =
      .error ("Unterminated block comment: /*".toList ++
        (c8opens 1 ++ (c8closes 1 ++ [' ']))) ∧
    mysqlTopRem ('/' :: '*' :: ([' ', '/', '*', ' '] ++ ['*', '/'])) = [] :=
  ⟨c8_block_nesting.1 1, c8_block_nesting.2.1 1,
   c8_block_nesting.2.2 [' ', '/', '*', ' '] rfl⟩

/-! ### C9: case normalization of reported contexts -/

/-- The invariant C9 states of every delimiter the Postgres lexer can
report: dollar tags are left alone, everything else is lowercase. -/
def c9good (d : Str) : Prop := d.head? = some '$' ∨ toLowerStr d = d

theorem pgMatchAt_lower (s m : Str) (h : pgMatchAt s = some m) :
    m.head? = some '$' ∨ toLowerStr (toLowerStr m) = toLowerStr m := by
  cases s with
  | nil => simp [pgMatchAt] at h
  | cons c1 rest =>
    rw [pgMatchAt] at h
    by_cases h1 : c1 = '-' ∧ rest.head? = some '-'
    · rw [if_pos h1] at h
      injection h with h
      subst h
      right
      decide
    · rw [if_neg h1] at h
      by_cases h2 : c1 = '/' ∧ rest.head? = some '*'
      · rw [if_pos h2] at h
        injection h with h
        subst h
        right
        decide
      · rw [if_neg h2] at h
        by_cases h3 : c1 = '$'
        · rw [if_pos h3] at h
          simp only [] at h
          left
          split at h
          · split at h
            · injection h with h
              subst h
              rfl
            · exact absurd h (by simp)
          · split at h
            · injection h with h
              subst h
              rfl
            · exact absurd h (by simp)
        · rw [if_neg h3] at h
          by_cases h4 : c1 = dqc
          · rw [if_pos h4] at h
            injection h with h
            subst h
            right
            decide
          · rw [if_neg h4] at h
            by_cases h5 : (c1 = 'U' ∨ c1 = 'u') ∧ isLeadOf ['&', dqc] rest = true
            · rw [if_pos h5] at h
              injection h with h
              subst h
              right
              rcases h5.1 with rfl | rfl <;> decide
            · rw [if_neg h5] at h
              by_cases h6 : c1 = sqc
              · rw [if_pos h6] at h
                injection h with h
                subst h
                right
                decide
              · rw [if_neg h6] at h
                by_cases h7 : (c1 = 'U' ∨ c1 = 'u') ∧ isLeadOf ['&', sqc] rest = true
                · rw [if_pos h7] at h
                  injection h with h
                  subst h
                  right
                  rcases h7.1 with rfl | rfl <;> decide
                · rw [if_neg h7] at h
                  by_cases h8 : (c1 = 'E' ∨ c1 = 'e' ∨ c1 = 'B' ∨ c1 = 'b' ∨
                      c1 = 'X' ∨ c1 = 'x') ∧ rest.head? = some sqc
                  · rw [if_pos h8] at h
                    injection h with h
                    subst h
                    right
                    rcases h8.1 with rfl | rfl | rfl | rfl | rfl | rfl <;> decide
                  · rw [if_neg h8] at h
                    exact absurd h (by simp)

theorem pgTopScan_match : ∀ s x, pgTopScan s = some x →
    ∃ t, pgMatchAt t = some x.2.1 := by
  intro s
  induction s with
  | nil =>
    intro x h
    simp [pgTopScan] at h
  | cons c cs ih =>
    intro x h
    rw [pgTopScan] at h
    cases hm : pgMatchAt (c :: cs) with
    | some m =>
      rw [hm] at h
      injection h with h
      subst h
      exact ⟨c :: cs, hm⟩
    | none =>
      rw [hm] at h
      cases hx : pgTopScan cs with
      | none =>
        rw [hx] at h
        simp at h
      | some y =>
        rw [hx] at h
        simp only [Option.map_some] at h
        injection h with h
        subst h
        obtain ⟨t, ht⟩ := ih y hx
        exact ⟨t, ht⟩

theorem pgLineHandler_delim (chunk : Str) (d2 : Option Str) (rem : Str) (k : Nat)
    (h : pgLineHandler chunk = .ok (d2, rem, k)) : d2 = none := by
  simp only [pgLineHandler] at h
  split at h
  · injection h with h
    exact (Prod.mk.injEq _ _ _ _ ▸ h).1.symm ▸ rfl
  · exact absurd h (by simp)

theorem pgBlockHandler_delim (chunk : Str) (d2 : Option Str) (rem : Str) (k : Nat)
    (h : pgBlockHandler chunk = .ok (d2, rem, k)) : d2 = none := by
  rw [pgBlockHandler] at h
  split at h
  · injection h with h
    exact (Prod.mk.injEq _ _ _ _ ▸ h).1.symm ▸ rfl
  · exact absurd h (by simp)

theorem pgDollarHandler_delim (d chunk : Str) (d2 : Option Str) (rem : Str) (k : Nat)
    (h : pgDollarHandler d chunk = .ok (d2, rem, k)) : d2 = none ∨ d2 = some d := by
  rw [pgDollarHandler] at h
  split at h
  · left
    injection h with h
    exact ((Prod.mk.injEq _ _ _ _).mp h).1.symm
  · split at h
    · split at h
      · exact absurd h (by simp)
      · right
        injection h with h
        exact ((Prod.mk.injEq _ _ _ _).mp h).1.symm
    · right
      injection h with h
      exact ((Prod.mk.injEq _ _ _ _).mp h).1.symm

theorem pgDqHandler_delim (d chunk : Str) (d2 : Option Str) (rem : Str) (k : Nat)
    (h : pgDqHandler d chunk = .ok (d2, rem, k)) : d2 = none ∨ d2 = some d := by
  rw [pgDqHandler] at h
  split at h
  · exact absurd h (by simp)
  · simp only [] at h
    split at h
    · left
      injection h with h
      exact ((Prod.mk.injEq _ _ _ _).mp h).1.symm
    · split at h
      · right
        injection h with h
        exact ((Prod.mk.injEq _ _ _ _).mp h).1.symm
      · exact absurd h (by simp)

theorem pgSqHandler_delim (d chunk : Str) (d2 : Option Str) (rem : Str) (k : Nat)
    (h : pgSqHandler d chunk = .ok (d2, rem, k)) :
    d2 = none ∨ d2 = some d ∨ d2 = some ['e'] := by
  rw [pgSqHandler] at h
  split at h
  · exact absurd h (by simp)
  · simp only [] at h
    split at h
    · injection h with h
      have hd : d2 = if d = ['e', sqc] ∨ d = ['E', sqc] then some ['e'] else none :=
        ((Prod.mk.injEq _ _ _ _).mp h).1.symm
      by_cases he : d = ['e', sqc] ∨ d = ['E', sqc]
      · right
        right
        rw [hd, if_pos he]
      · left
        rw [hd, if_neg he]
    · split at h
      · right
        left
        injection h with h
        exact ((Prod.mk.injEq _ _ _ _).mp h).1.symm
      · exact absurd h (by simp)

theorem eLoopF_delim : ∀ (fuel : Nat) (rem : Str) (d2 : Option Str) (rem2 : Str) (k : Nat),
    eLoopF fuel rem = .ok (d2, rem2, k) →
    d2 = none ∨ d2 = some ['e'] ∨ d2 = some ['e', sqc] := by
  intro fuel
  induction fuel with
  | zero =>
    intro rem d2 rem2 k h
    simp [eLoopF] at h
  | succ f ih =>
    intro rem d2 rem2 k h
    cases rem with
    | nil =>
      rw [eLoopF] at h
      right
      left
      injection h with h
      exact ((Prod.mk.injEq _ _ _ _).mp h).1.symm
    | cons c cs =>
      simp only [eLoopF] at h
      split at h
      · left
        injection h with h
        exact ((Prod.mk.injEq _ _ _ _).mp h).1.symm
      · split at h
        · exact ih _ _ _ _ h
        · rename_i sd
          split at h
          · right
            right
            injection h with h
            exact ((Prod.mk.injEq _ _ _ _).mp h).1.symm
          · split at h
            · right
              left
              injection h with h
              exact ((Prod.mk.injEq _ _ _ _).mp h).1.symm
            · split at h
              · exact absurd h (by simp)
              · split at h
                · rename_i res rem4 k2 hinner
                  injection h with h
                  have hd : d2 = res := ((Prod.mk.injEq _ _ _ _).mp h).1.symm
                  subst hd
                  exact ih _ _ _ _ hinner
                · exact absurd h (by simp)

theorem pgHandle_delim (d chunk : Str) (d2 : Option Str) (rem : Str) (k : Nat)
    (h : pgHandle d chunk = .ok (d2, rem, k)) :
    d2 = none ∨ d2 = some d ∨ d2 = some ['e'] ∨ d2 = some ['e', sqc] := by
  rw [pgHandle] at h
  split at h
  · exact Or.inl (pgLineHandler_delim chunk d2 rem k h)
  · exact Or.inl (pgBlockHandler_delim chunk d2 rem k h)
  · rcases pgDollarHandler_delim d chunk d2 rem k h with h1 | h1
    · exact Or.inl h1
    · exact Or.inr (Or.inl h1)
  · rcases eLoopF_delim (chunk.length + 1) chunk d2 rem k h with h1 | h1 | h1
    · exact Or.inl h1
    · exact Or.inr (Or.inr (Or.inl h1))
    · exact Or.inr (Or.inr (Or.inr h1))
  · split at h
    · rcases pgDqHandler_delim d chunk d2 rem k h with h1 | h1
      · exact Or.inl h1
      · exact Or.inr (Or.inl h1)
    · split at h
      · rcases pgSqHandler_delim d chunk d2 rem k h with h1 | h1 | h1
        · exact Or.inl h1
        · exact Or.inr (Or.inl h1)
        · exact Or.inr (Or.inr (Or.inl h1))
      · exact absurd h (by simp)
  · exact absurd h (by simp)

theorem pgConsumeFromLeft_delim (st : PgL) (rem : Str) (st2 : PgL) (rem2 : Str) (k : Nat)
    (h : pgConsumeFromLeft st rem = .ok (st2, rem2, k))
    (hst : ∀ d, st.delim = some d → c9good d) :
    ∀ d, st2.delim = some d → c9good d := by
  rw [pgConsumeFromLeft] at h
  cases hD : st.delim with
  | some d0 =>
    rw [hD] at h
    simp only [] at h
    cases hH : pgHandle d0 rem with
    | ok y =>
      obtain ⟨dy, remy, ky⟩ := y
      rw [hH] at h
      injection h with h
      have hst2 : st2.delim = dy := by
        rw [← ((Prod.mk.injEq _ _ _ _).mp h).1]
      intro d hd
      rw [hst2] at hd
      rcases pgHandle_delim d0 rem dy remy ky hH with h1 | h1 | h1 | h1 <;>
        rw [h1] at hd
      · exact absurd hd (by simp)
      · injection hd with hd
        subst hd
        exact hst d0 hD
      · injection hd with hd
        subst hd
        right
        decide
      · injection hd with hd
        subst hd
        right
        decide
    | error m =>
      rw [hH] at h
      exact absurd h (by simp)
  | none =>
    rw [hD] at h
    cases hT : pgTopScan rem with
    | none =>
      rw [hT] at h
      injection h with h
      have hst2 : st2.delim = none := by
        rw [← ((Prod.mk.injEq _ _ _ _).mp h).1]
      intro d hd
      rw [hst2] at hd
      exact absurd hd (by simp)
    | some x =>
      rw [hT] at h
      injection h with h
      have hst2 : st2.delim =
          some (if x.2.1.head? = some '$' then x.2.1 else toLowerStr x.2.1) := by
        rw [← ((Prod.mk.injEq _ _ _ _).mp h).1]
      intro d hd
      rw [hst2] at hd
      injection hd with hd
      subst hd
      by_cases hdollar : x.2.1.head? = some '$'
      · rw [if_pos hdollar]
        exact Or.inl hdollar
      · rw [if_neg hdollar]
        obtain ⟨t, ht⟩ := pgTopScan_match rem x hT
        rcases pgMatchAt_lower t x.2.1 ht with h1 | h1
        · exact absurd h1 hdollar
        · exact Or.inr h1

theorem pgLexLoopF_delim : ∀ (fuel : Nat) (st : PgL) (rem : Str) (closes : Nat)
    (st2 : PgL) (k2 : Nat), pgLexLoopF fuel st rem closes = .ok (st2, k2) →
    (∀ d, st.delim = some d → c9good d) → ∀ d, st2.delim = some d → c9good d := by
  intro fuel
  induction fuel with
  | zero =>
    intro st rem closes st2 k2 h
    simp [pgLexLoopF] at h
  | succ f ih =>
    intro st rem closes st2 k2 h hst
    cases rem with
    | nil =>
      rw [pgLexLoopF] at h
      injection h with h
      have hst2 : st2 = st := ((Prod.mk.injEq _ _ _ _).mp h).1.symm
      subst hst2
      exact hst
    | cons c cs =>
      simp only [pgLexLoopF] at h
      cases hC : pgConsumeFromLeft st (c :: cs) with
      | ok y =>
        obtain ⟨sty, remy, ky⟩ := y
        rw [hC] at h
        exact ih sty remy (closes + ky) st2 k2 h
          (pgConsumeFromLeft_delim st (c :: cs) sty remy ky hC hst)
      | error m =>
        rw [hC] at h
        exact absurd h (by simp)

theorem pgLexInner_delim (s : PgInner) (i : Option Str)
    (x : Option Str × PgInner × Nat) (h : pgLexInner s i = .ok x)
    (hs : ∀ d, s.delim = some d → c9good d) :
    ∀ d, x.2.1.delim = some d → c9good d := by
  cases i with
  | none =>
    simp only [pgLexInner] at h
    split at h
    · exact absurd h (by simp)
    · injection h with h
      subst h
      exact hs
  | some chunk =>
    simp only [pgLexInner] at h
    split at h
    · exact absurd h (by simp)
    · cases hL : pgLexChunk { delim := s.delim, contAmbig := chunk.any (fun c => c = lfc ∨ c = crc) } chunk with
      | ok y =>
        obtain ⟨sty, ky⟩ := y
        rw [hL] at h
        injection h with h
        subst h
        intro d hd
        exact pgLexLoopF_delim (2 * chunk.length + 2)
          { delim := s.delim, contAmbig := chunk.any (fun c => c = lfc ∨ c = crc) }
          chunk 0 sty ky hL hs d hd
      | error m =>
        rw [hL] at h
        exact absurd h (by simp)

theorem pgFeed_delim (s : PgState) (i : Option Str) (v : Option Str)
    (h : (pgFeed s i).1 = .ok v)
    (hs : ∀ d, s.inner.delim = some d → c9good d) :
    ∀ d, (pgFeed s i).2.inner.delim = some d → c9good d := by
  rw [pgFeed] at h ⊢
  cases hE : s.msg with
  | some m0 =>
    simp only [hE] at h
    simp at h
  | none =>
    simp only [hE] at h ⊢
    cases hL : pgLexInner s.inner i with
    | ok x =>
      simp only [hL]
      intro d hd
      exact pgLexInner_delim s.inner i x hL hs d hd
    | error m =>
      simp only [hL] at h
      simp at h

theorem pgFeedAll_delim : ∀ (cs : List Str) (s0 s : PgState),
    (∀ d, s0.inner.delim = some d → c9good d) →
    pgFeedAll s0 cs = .ok s → ∀ d, s.inner.delim = some d → c9good d := by
  intro cs
  induction cs with
  | nil =>
    intro s0 s h0 h
    simp only [pgFeedAll] at h
    injection h with h
    subst h
    exact h0
  | cons c rest ih =>
    intro s0 s h0 h
    simp only [pgFeedAll] at h
    cases hF : pgFeed s0 (some c) with
    | mk r s1 =>
      cases r with
      | ok v =>
        simp only [hF] at h
        refine ih s1 s ?_ h
        have hv : (pgFeed s0 (some c)).1 = .ok v := by rw [hF]
        have := pgFeed_delim s0 (some c) v hv h0
        rwa [hF] at this
      | error m =>
        simp only [hF] at h
        exact absurd h (by simp)

/-- C9: every delimiter an error-free Postgres lexer can hold after any
chunk sequence either is a dollar tag (left in its original case) or is
already lowercase — so it matches the lowercase keys of the escape side
— and the dollar handler leaves the dollar context only at a literal,
case-sensitive occurrence of the full tag in the chunk. -/
theorem c9_lowercase_invariant :
    (∀ (cs : List Str) (s : PgState), pgFeedAll pgInit cs = .ok s →
      ∀ d, s.inner.delim = some d →
        d.head? = some '$' ∨ toLowerStr d = d) ∧
    (∀ (d chunk rem : Str) (k : Nat),
      pgDollarHandler d chunk = .ok (none, rem, k) →
      ∃ i, d <+: chunk.drop i) := by
  constructor
  · intro cs s hAll d hd
    exact pgFeedAll_delim cs pgInit s (by intro d0 h0; exact absurd h0 (by simp [pgInit])) hAll d hd
  · intro d chunk rem k h
    rw [pgDollarHandler] at h
    cases hI : idxOfSub chunk d with
    | some i =>
      exact ⟨i, (idxOfSub_some chunk d i hI).1⟩
    | none =>
      simp only [hI] at h
      split at h
      · split at h
        · exact absurd h (by simp)
        · injection h with h
          exact absurd ((Prod.mk.injEq _ _ _ _).mp h).1 (by simp)
      · injection h with h
        exact absurd ((Prod.mk.injEq _ _ _ _).mp h).1 (by simp)

/-- Witness for C9: the chunk `E'abc` (uppercase E) leaves the lexer in
the lowercased context `e'`, which satisfies the invariant, and a closed
dollar string witnesses the case-sensitive close. -/
theorem c9_witness :
    ((['e', sqc].head? = some '$' ∨ toLowerStr ['e', sqc] = ['e', sqc]) ∧
      pgFeedAll pgInit [['E', sqc, 'a']] =
        .ok ⟨none, ⟨some ['e', sqc], false, 1⟩⟩) ∧
    ∃ i, ['$', 'f', '$'] <+: (['a', '$', 'f', '$', 'b'].drop i) :=
  ⟨⟨c9_lowercase_invariant.1 [['E', sqc, 'a']] ⟨none, ⟨some ['e', sqc], false, 1⟩⟩
      rfl ['e', sqc] rfl, rfl⟩,
   c9_lowercase_invariant.2 ['$', 'f', '$'] ['a', '$', 'f', '$', 'b'] ['b'] 1 rfl⟩

/-! ### C5: round-trips of delimited escapes through the lexers -/

theorem strBodyRem_flatMap (e : Bool) (q : Char) (f : Char → Str)
    (hstep : ∀ c t, strBodyRem e q (f c ++ t) = strBodyRem e q t) :
    ∀ (v t : Str), strBodyRem e q (v.flatMap f ++ t) = strBodyRem e q t := by
  intro v
  induction v with
  | nil => intro t; rfl
  | cons c cs ih =>
    intro t
    rw [List.flatMap_cons, List.append_assoc, hstep, ih]

set_option maxHeartbeats 1600000 in
theorem strBody_pgE_esc_step : ∀ (c : Char) (t : Str),
    strBodyRem true sqc (emapPgE c ++ t) = strBodyRem true sqc t := by
  intro c t
  rw [emapPgE]
  split_ifs <;> cases t <;> simp_all +decide [strBodyRem, isJsDot]

set_option maxHeartbeats 1600000 in
theorem strBody_pgE_simple_step : ∀ (c : Char) (t : Str),
    strBodyRem false sqc (emapPgE c ++ t) = strBodyRem false sqc t := by
  intro c t
  rw [emapPgE]
  split_ifs <;> cases t <;> simp_all +decide [strBodyRem]

set_option maxHeartbeats 1600000 in
theorem strBody_pgU_sq_step : ∀ (c : Char) (t : Str),
    strBodyRem true sqc (emapPgU c ++ t) = strBodyRem true sqc t := by
  intro c t
  rw [emapPgU]
  split_ifs <;> cases t <;> simp_all +decide [strBodyRem, isJsDot]

set_option maxHeartbeats 1600000 in
theorem strBody_pgU_dq_step : ∀ (c : Char) (t : Str),
    strBodyRem true dqc (emapPgU c ++ t) = strBodyRem true dqc t := by
  intro c t
  rw [emapPgU]
  split_ifs <;> cases t <;> simp_all +decide [strBodyRem, isJsDot]

set_option maxHeartbeats 1600000 in
theorem strBody_sqDouble_step : ∀ (c : Char) (t : Str),
    strBodyRem false sqc ((if c = sqc then [sqc, sqc] else [c]) ++ t) =
      strBodyRem false sqc t := by
  intro c t
  split_ifs <;> cases t <;> simp_all +decide [strBodyRem]

set_option maxHeartbeats 1600000 in
theorem strBody_dqDouble_step : ∀ (c : Char) (t : Str),
    strBodyRem false dqc ((if c = dqc then [dqc, dqc] else [c]) ++ t) =
      strBodyRem false dqc t := by
  intro c t
  split_ifs <;> cases t <;> simp_all +decide [strBodyRem]

theorem myDelimBodyRem_flatMapP (d : Char) (f : Char → Str) (P : Char → Prop)
    (hstep : ∀ c t, P c → myDelimBodyRem d (f c ++ t) = myDelimBodyRem d t) :
    ∀ (v t : Str), (∀ c ∈ v, P c) →
      myDelimBodyRem d (v.flatMap f ++ t) = myDelimBodyRem d t := by
  intro v
  induction v with
  | nil =>
    intro t _
    rfl
  | cons c cs ih =>
    intro t hv
    rw [List.flatMap_cons, List.append_assoc, hstep c _ (hv c (by simp)),
      ih t (fun x hx => hv x (by simp [hx]))]

set_option maxHeartbeats 1600000 in
theorem myDelim_my_step (d : Char) (hd : d = sqc ∨ d = dqc) : ∀ (c : Char) (t : Str),
    myDelimBodyRem d (emapMy c ++ t) = myDelimBodyRem d t := by
  intro c t
  rw [emapMy]
  rcases hd with rfl | rfl <;> split_ifs <;> cases t <;> simp_all +decide [myDelimBodyRem]

set_option maxHeartbeats 1600000 in
theorem myDelim_bt_step : ∀ (c : Char) (t : Str), c ≠ bslc →
    myDelimBodyRem bqc ((if c = bqc then [bqc, bqc] else [c]) ++ t) =
      myDelimBodyRem bqc t := by
  intro c t hc
  split_ifs <;> cases t <;> simp_all +decide [myDelimBodyRem]

theorem mysqlTopRemF_quote (f : Nat) (d : Char) (hd : d = sqc ∨ d = dqc ∨ d = bqc)
    (r : Str) : mysqlTopRemF (f + 1) (d :: r) = d :: r := by
  rcases hd with rfl | rfl | rfl <;>
    (rw [mysqlTopRemF.eq_def]; simp +decide)

theorem mysqlTopRem_quote (d : Char) (hd : d = sqc ∨ d = dqc ∨ d = bqc) (r : Str) :
    mysqlTopRem (d :: r) = d :: r := by
  rw [mysqlTopRem]
  have h : (d :: r).length + 1 = r.length + 1 + 1 := by simp
  rw [h]
  exact mysqlTopRemF_quote (r.length + 1) d hd r

theorem myLexLoopF_nil_ok (f : Nat) (dl : Option Char) (closes : Nat) :
    myLexLoopF (f + 1) dl [] closes = .ok (dl, closes) := by
  rw [myLexLoopF]

theorem myLexLoopF_close (f : Nat) (d : Char) (body : Str)
    (hbody : myDelimBodyRem d (body ++ [d]) = [d]) (closes : Nat) :
    myLexLoopF (f + 1 + 1) (some d) (body ++ [d]) closes = .ok (none, closes + 1) := by
  cases body with
  | nil =>
    simp only [List.nil_append] at hbody ⊢
    rw [myLexLoopF.eq_def]
    simp only [hbody]
    simp [myLexLoopF_nil_ok]
  | cons b bs =>
    simp only [List.cons_append] at hbody ⊢
    rw [myLexLoopF.eq_def]
    simp only [hbody]
    simp [myLexLoopF_nil_ok]

theorem myLexLoop_single (d : Char) (hd : d = sqc ∨ d = dqc ∨ d = bqc)
    (body : Str) (hbody : myDelimBodyRem d (body ++ [d]) = [d]) :
    myLexLoop none (d :: (body ++ [d])) = .ok (none, 1) := by
  rw [myLexLoop]
  have hf : (d :: (body ++ [d])).length + 1 = body.length + 1 + 1 + 1 := by simp
  rw [hf]
  have hq := mysqlTopRem_quote d hd (body ++ [d])
  rw [myLexLoopF.eq_def]
  simp only [hq]
  rcases hd with rfl | rfl | rfl <;>
  · simp +decide only []
    exact myLexLoopF_close body.length _ body hbody 0

theorem pgLexLoopF_handler (f : Nat) (d : Str) (body : Str) (hb : body ≠ [])
    (res : Option Str) (hh : pgHandle d body = .ok (res, [], 1)) (closes : Nat) :
    pgLexLoopF (f + 1 + 1) ⟨some d, false⟩ body closes = .ok (⟨res, false⟩, closes + 1) := by
  cases body with
  | nil => exact absurd rfl hb
  | cons b bs =>
    rw [pgLexLoopF.eq_def]
    have hcf : pgConsumeFromLeft ⟨some d, false⟩ (b :: bs) = .ok (⟨res, false⟩, [], 1) := by
      rw [pgConsumeFromLeft]
      simp only [hh]
      simp [ite_self]
    simp only [hcf]
    have hnil : pgLexLoopF (f + 1) ⟨res, false⟩ [] (closes + 1) =
        .ok (⟨res, false⟩, closes + 1) := by
      rw [pgLexLoopF]
    simpa using hnil

theorem pgLexChunk_single (d body : Str) (hd : d ≠ []) (hb : body ≠ [])
    (hm : pgMatchAt (d ++ body) = some d)
    (hlow : d.head? ≠ some '$' → toLowerStr d = d)
    (res : Option Str) (hh : pgHandle d body = .ok (res, [], 1)) :
    pgLexChunk ⟨none, false⟩ (d ++ body) = .ok (⟨res, false⟩, 1) := by
  cases d with
  | nil => exact absurd rfl hd
  | cons c0 ds =>
    simp only [List.cons_append] at hm ⊢
    rw [pgLexChunk]
    obtain ⟨f, hf⟩ : ∃ f, 2 * (c0 :: (ds ++ body)).length + 2 = f + 1 + 1 + 1 :=
      ⟨2 * (ds.length + body.length) + 1, by
        simp only [List.length_cons, List.length_append]
        omega⟩
    rw [hf]
    have hscan : pgTopScan (c0 :: (ds ++ body)) = some ([], c0 :: ds, body) := by
      rw [pgTopScan, hm]
      simp [List.drop_left]
    have hcf1 : pgConsumeFromLeft ⟨none, false⟩ (c0 :: (ds ++ body)) =
        .ok (⟨some (c0 :: ds), false⟩, body, 0) := by
      rw [pgConsumeFromLeft]
      simp only [hscan]
      by_cases hc : c0 = '$'
      · simp [hc]
      · have hl : toLowerStr (c0 :: ds) = c0 :: ds := by
          apply hlow
          simp [hc]
        simp [hc, hl]
    rw [pgLexLoopF.eq_def]
    simp only [hcf1]
    have := pgLexLoopF_handler f (c0 :: ds) body hb res hh 0
    simpa using this

theorem pgSq_plain_close (d : Str) (hd3 : d = [sqc] ∨ d = ['b', sqc] ∨ d = ['x', sqc])
    (v : Str) :
    pgSqHandler d (replaceChar sqc [sqc, sqc] v ++ [sqc]) = .ok (none, [], 1) := by
  have hr : strBodyRem false sqc (replaceChar sqc [sqc, sqc] v ++ [sqc]) = ([], true) := by
    rw [replaceChar, strBodyRem_flatMap false sqc _ strBody_sqDouble_step v [sqc]]
    rfl
  rcases hd3 with rfl | rfl | rfl <;>
  · rw [pgSqHandler]
    simp +decide [stringBodyKind, hr]

theorem pgSq_e_close (v : Str) :
    pgSqHandler ['e', sqc] (escBodyWith emapPgE v ++ [sqc]) = .ok (some ['e'], [], 1) := by
  have hr : strBodyRem true sqc (escBodyWith emapPgE v ++ [sqc]) = ([], true) := by
    rw [escBodyWith, strBodyRem_flatMap true sqc _ strBody_pgE_esc_step v [sqc]]
    rfl
  rw [pgSqHandler]
  simp +decide [stringBodyKind, hr]

theorem pgSq_u_close (v : Str) :
    pgSqHandler ['u', '&', sqc] (escBodyWith emapPgU v ++ [sqc]) = .ok (none, [], 1) := by
  have hr : strBodyRem true sqc (escBodyWith emapPgU v ++ [sqc]) = ([], true) := by
    rw [escBodyWith, strBodyRem_flatMap true sqc _ strBody_pgU_sq_step v [sqc]]
    rfl
  rw [pgSqHandler]
  simp +decide [stringBodyKind, hr]

theorem pgSq_simple_full_close (v : Str) :
    pgSqHandler [sqc] (escBodyWith emapPgE v ++ [sqc]) = .ok (none, [], 1) := by
  have hr : strBodyRem false sqc (escBodyWith emapPgE v ++ [sqc]) = ([], true) := by
    rw [escBodyWith, strBodyRem_flatMap false sqc _ strBody_pgE_simple_step v [sqc]]
    rfl
  rw [pgSqHandler]
  simp +decide [stringBodyKind, hr]

theorem pgDq_plain_close (v : Str) :
    pgDqHandler [dqc] (replaceChar dqc [dqc, dqc] v ++ [dqc]) = .ok (none, [], 1) := by
  have hr : strBodyRem false dqc (replaceChar dqc [dqc, dqc] v ++ [dqc]) = ([], true) := by
    rw [replaceChar, strBodyRem_flatMap false dqc _ strBody_dqDouble_step v [dqc]]
    rfl
  rw [pgDqHandler]
  simp +decide [stringBodyKind, hr]

theorem pgDq_u_close (v : Str) :
    pgDqHandler ['u', '&', dqc] (escBodyWith emapPgU v ++ [dqc]) = .ok (none, [], 1) := by
  have hr : strBodyRem true dqc (escBodyWith emapPgU v ++ [dqc]) = ([], true) := by
    rw [escBodyWith, strBodyRem_flatMap true dqc _ strBody_pgU_dq_step v [dqc]]
    rfl
  rw [pgDqHandler]
  simp +decide [stringBodyKind, hr]

theorem myDelim_my_body (d : Char) (hd : d = sqc ∨ d = dqc) (v : Str) :
    myDelimBodyRem d (escBodyWith emapMy v ++ [d]) = [d] := by
  rw [escBodyWith,
    myDelimBodyRem_flatMapP d emapMy (fun _ => True) (fun c t _ => myDelim_my_step d hd c t)
      v [d] (fun _ _ => trivial)]
  rcases hd with rfl | rfl <;> rfl

theorem myDelim_bt_body (v : Str) (hv : bslc ∉ v) :
    myDelimBodyRem bqc (replaceChar bqc [bqc, bqc] v ++ [bqc]) = [bqc] := by
  rw [replaceChar,
    myDelimBodyRem_flatMapP bqc _ (fun c => c ≠ bslc)
      (fun c t hc => myDelim_bt_step c t hc) v [bqc]
      (fun c hc => by intro he; exact hv (he ▸ hc))]
  rfl

theorem mysqlEscapeDelimited_str (v : Str) (d : Char) (hd : ¬ d = bqc) (fq : Bool) :
    mysqlEscapeDelimited v d fq = escBodyWith emapMy v := by
  rw [mysqlEscapeDelimited, if_neg hd, mysqlEscapeString]
  simp

theorem mysqlEscapeDelimited_bt (v : Str) :
    mysqlEscapeDelimited v bqc true = replaceChar bqc [bqc, bqc] v := by
  rw [mysqlEscapeDelimited, if_pos rfl, mysqlEscapeIdStr, if_pos rfl, stripBtDelims]
  simp +decide

theorem getLast_app (l : List Char) (a : Char) : (l ++ [a]).getLast? = some a := by
  simp

theorem dropLast_app (l : List Char) (a : Char) : (l ++ [a]).dropLast = l := by
  simp

theorem pgEscapeDelimited_dq (v : Str) :
    pgEscapeDelimited v [dqc] true = .ok (replaceChar dqc [dqc, dqc] v) := by
  rw [pgEscapeDelimited, if_pos rfl, pgEscapeIdStr, stripPgIdDelims]
  simp +decide [isLeadOf, getLast_app, dropLast_app]

theorem pgEscapeDelimited_udq (v : Str) :
    pgEscapeDelimited v ['u', '&', dqc] true = .ok (escBodyWith emapPgU v) := by
  rw [pgEscapeDelimited]
  rw [if_neg (by decide), if_pos rfl, pgEscapeIdStr, stripPgIdDelims]
  simp +decide [isLeadOf, getLast_app, dropLast_app, pgEscapeStringBody]

theorem pgMatchAt_delim (d : Str)
    (hd : d = [sqc] ∨ d = ['b', sqc] ∨ d = ['x', sqc] ∨ d = ['e', sqc] ∨
      d = ['u', '&', sqc] ∨ d = [dqc] ∨ d = ['u', '&', dqc]) (body : Str) :
    pgMatchAt (d ++ body) = some d := by
  rcases hd with rfl | rfl | rfl | rfl | rfl | rfl | rfl <;>
    simp +decide [pgMatchAt, isLeadOf]

theorem takeWhile_tag (tag : Str) (htag : ∀ c ∈ tag, isTagChar c = true) (body : Str) :
    (tag ++ ('$' :: body)).takeWhile isTagChar = tag := by
  induction tag with
  | nil =>
    rw [List.nil_append, List.takeWhile]
    have h : isTagChar '$' = false := by decide
    rw [h]
  | cons c cs ih =>
    rw [List.cons_append, List.takeWhile_cons]
    rw [htag c (by simp)]
    rw [ih (fun x hx => htag x (by simp [hx]))]
    simp

theorem pgMatchAt_dollar (tag : Str) (htag : ∀ c ∈ tag, isTagChar c = true)
    (hstart : ∀ c, tag.head? = some c → isTagStart c = true) (body : Str) :
    pgMatchAt (('$' :: (tag ++ ['$'])) ++ body) = some ('$' :: (tag ++ ['$'])) := by
  rw [List.cons_append, pgMatchAt]
  rw [if_neg (by simp +decide), if_neg (by simp +decide), if_pos rfl]
  have harr : (tag ++ ['$']) ++ body = tag ++ ('$' :: body) := by simp
  rw [harr, takeWhile_tag tag htag body]
  cases tag with
  | nil =>
    simp +decide
  | cons c cs =>
    rw [if_neg (by simp)]
    have h1 : ((c :: cs).head?.elim false isTagStart) = true := by
      simpa using hstart c rfl
    have h2 : (((c :: cs) ++ ('$' :: body)).drop (c :: cs).length).head? = some '$' := by
      rw [List.drop_left]
      rfl
    rw [if_pos ⟨h1, h2⟩]

theorem pgHandle_last_sq (d chunk : Str) (hlast : d.getLast? = some sqc) :
    pgHandle d chunk = pgSqHandler d chunk := by
  rw [pgHandle, hlast]
  simp +decide

theorem pgHandle_last_dq (d chunk : Str) (hlast : d.getLast? = some dqc) :
    pgHandle d chunk = pgDqHandler d chunk := by
  rw [pgHandle, hlast]
  simp +decide

theorem pgHandle_last_dollar (d chunk : Str) (hlast : d.getLast? = some '$') :
    pgHandle d chunk = pgDollarHandler d chunk := by
  rw [pgHandle, hlast]
  simp +decide

theorem idxOfSub_first (s pat : Str) (i : Nat) (hocc : pat <+: s.drop i)
    (hmin : ∀ j, j < i → ¬ pat <+: s.drop j) : idxOfSub s pat = some i := by
  cases h : idxOfSub s pat with
  | none => exact absurd hocc ((idxOfSub_none s pat).mp h i)
  | some i0 =>
    obtain ⟨h1, h2⟩ := idxOfSub_some s pat i0 h
    rcases lt_trichotomy i0 i with hlt | heq | hgt
    · exact absurd h1 (hmin i0 hlt)
    · rw [heq]
    · exact absurd hocc (h2 i hgt)

theorem dollar_first_close (tag v : Str) (htag : ∀ c ∈ tag, isTagChar c = true)
    (hnh : pgEmbedHazard v ('$' :: (tag ++ ['$'])) = false) :
    idxOfSub (v ++ ('$' :: (tag ++ ['$']))) ('$' :: (tag ++ ['$'])) = some v.length := by
  have hIdx : idxOfSub v ('$' :: (tag ++ ['$'])) = none := by
    rw [pgEmbedHazard] at hnh
    rcases Bool.or_eq_false_iff.mp hnh with ⟨ha, _⟩
    cases hx : idxOfSub v ('$' :: (tag ++ ['$']))
    · rfl
    · rw [hx] at ha
      simp at ha
  have hLastF : (match lastIdxOfChar v '$' with
      | some ld => isLeadOf (v.drop ld) ('$' :: (tag ++ ['$']))
      | none => false) = false := by
    rw [pgEmbedHazard] at hnh
    exact (Bool.or_eq_false_iff.mp hnh).2
  apply idxOfSub_first
  · rw [List.drop_left]
  · intro j hj hpre
    have hdj : (v ++ ('$' :: (tag ++ ['$']))).drop j =
        v.drop j ++ ('$' :: (tag ++ ['$'])) := by
      rw [List.drop_append_eq_append_drop]
      have : j - v.length = 0 := by omega
      rw [this]
      simp
    rw [hdj] at hpre
    by_cases hlen : ('$' :: (tag ++ ['$'])).length ≤ (v.drop j).length
    · have hvj : ('$' :: (tag ++ ['$'])) <+: v.drop j :=
        List.prefix_of_prefix_length_le hpre (List.prefix_append _ _) hlen
      exact (idxOfSub_none v _).mp hIdx j hvj
    · push_neg at hlen
      have hvj : v.drop j <+: ('$' :: (tag ++ ['$'])) :=
        List.prefix_of_prefix_length_le (List.prefix_append _ _) hpre (by omega)
      have hjlen : (v.drop j).length = v.length - j := List.length_drop j v
      cases hvd : v.drop j with
      | nil =>
        rw [hvd] at hjlen
        simp at hjlen
        omega
      | cons a w =>
        rw [hvd] at hvj
        rw [List.cons_prefix_cons] at hvj
        obtain ⟨ha, hw⟩ := hvj
        have hwtag : w <+: tag := by
          apply List.prefix_of_prefix_length_le hw (List.prefix_append _ _)
          have h1 : (a :: w).length = v.length - j := by rw [← hvd]; exact hjlen
          have h2 : ('$' :: (tag ++ ['$'])).length = tag.length + 2 := by simp
          simp at h1
          rw [hvd] at hlen
          simp at hlen
          omega
        have hwno : '$' ∉ w := by
          intro hmem
          have := htag '$' (hwtag.subset hmem)
          revert this
          decide
        have hlast : lastIdxOfChar v '$' = some j := by
          rw [lastIdxOfChar_some]
          exact ⟨w, by rw [hvd, ha], hwno⟩
        simp only [hlast] at hLastF
        have : isLeadOf (v.drop j) ('$' :: (tag ++ ['$'])) = true := by
          rw [isLeadOf_iff, hvd]
          rw [List.cons_prefix_cons]
          exact ⟨ha, hw⟩
        rw [this] at hLastF
        exact absurd hLastF (by simp)

theorem pgDollar_close (tag v : Str) (htag : ∀ c ∈ tag, isTagChar c = true)
    (hnh : pgEmbedHazard v ('$' :: (tag ++ ['$'])) = false) :
    pgDollarHandler ('$' :: (tag ++ ['$'])) (v ++ ('$' :: (tag ++ ['$']))) =
      .ok (none, [], 1) := by
  rw [pgDollarHandler]
  simp only [dollar_first_close tag v htag hnh]
  have hdrop : (v ++ ('$' :: (tag ++ ['$']))).drop
      (v.length + ('$' :: (tag ++ ['$'])).length) = [] := by
    apply List.drop_eq_nil_of_le
    simp
  rw [hdrop]

theorem replaceChar_not_mem (c : Char) (r : Str) (s : Str) (h : c ∉ s) :
    replaceChar c r s = s := by
  induction s with
  | nil => rfl
  | cons x xs ih =>
    rw [replaceChar, List.flatMap_cons]
    have hx : ¬ x = c := fun he => h (he ▸ List.mem_cons_self x xs)
    rw [if_neg hx]
    show [x] ++ replaceChar c r xs = x :: xs
    rw [ih (fun hm => h (List.mem_cons_of_mem _ hm))]
    rfl

theorem dot_not_mem_dbl (q : Char) (hq : ¬ '.' = q) (v : Str) (h : '.' ∉ v) :
    '.' ∉ replaceChar q [q, q] v := by
  intro hmem
  rw [replaceChar, List.mem_flatMap] at hmem
  obtain ⟨a, ha, hx⟩ := hmem
  by_cases hb : a = q
  · rw [if_pos hb] at hx
    simp at hx
    exact hq hx
  · rw [if_neg hb] at hx
    simp at hx
    exact h (hx ▸ ha)

set_option maxHeartbeats 1600000 in
theorem mem_emapPgU_dot (a : Char) : '.' ∈ emapPgU a → '.' = a := by
  rw [emapPgU]
  split_ifs <;> intro hx <;> simp +decide at hx <;> exact hx

theorem dot_not_mem_pgU (v : Str) (h : '.' ∉ v) : '.' ∉ escBodyWith emapPgU v := by
  intro hmem
  rw [escBodyWith, List.mem_flatMap] at hmem
  obtain ⟨a, ha, hx⟩ := hmem
  exact h ((mem_emapPgU_dot a hx) ▸ ha)

theorem mysqlEscapeDelimited_bt_noq (v : Str) (h : '.' ∉ v) :
    mysqlEscapeDelimited v bqc false = replaceChar bqc [bqc, bqc] v := by
  rw [mysqlEscapeDelimited, if_pos rfl, mysqlEscapeIdStr, if_neg (by simp)]
  rw [replaceChar_not_mem '.' [bqc, '.', bqc] (replaceChar bqc [bqc, bqc] v)
    (dot_not_mem_dbl bqc (by decide) v h)]
  rw [stripBtDelims]
  simp +decide

theorem pgEscapeDelimited_dq_noq (v : Str) (h : '.' ∉ v) :
    pgEscapeDelimited v [dqc] false = .ok (replaceChar dqc [dqc, dqc] v) := by
  rw [pgEscapeDelimited, if_pos rfl, pgEscapeIdStr, stripPgIdDelims]
  simp +decide [isLeadOf, getLast_app, dropLast_app,
    replaceChar_not_mem '.' [dqc, '.', dqc] (replaceChar dqc [dqc, dqc] v)
      (dot_not_mem_dbl dqc (by decide) v h)]

theorem pgEscapeDelimited_udq_noq (v : Str) (h : '.' ∉ v) :
    pgEscapeDelimited v ['u', '&', dqc] false = .ok (escBodyWith emapPgU v) := by
  rw [pgEscapeDelimited, if_neg (by decide), if_pos rfl, pgEscapeIdStr, stripPgIdDelims]
  simp +decide [isLeadOf, getLast_app, dropLast_app, pgEscapeStringBody,
    replaceChar_not_mem '.' [dqc, '.', 'u', '&', dqc] (escBodyWith emapPgU v)
      (dot_not_mem_pgU v h)]

/-- Counterexample to C5: three contexts break the round-trip as claimed.
Escaping the empty string for the `e\x27` context and re-lexing the wrapped
result leaves the lexer in the continuation state `e`, not the top-level
`None` state; a dotted identifier in the Postgres `"` context or the MySQL
backtick context (qualification allowed) is consumed as two closed
constructs, not one; and a value that is a single backslash in the
backtick context leaves the MySQL lexer still inside the backtick
construct, because the escaper doubles only backticks while the lexer
treats a backslash as an escape. -/
theorem c5_counterexample :
    (pgEscapeDelimitedString [] ['e', sqc] = .ok [] ∧
      pgLexChunk ⟨none, false⟩ (['e', sqc] ++ ([] ++ [sqc])) =
        .ok (⟨some ['e'], false⟩, 1)) ∧
    (pgEscapeDelimited ['a', '.', 'b'] [dqc] false =
        .ok ['a', dqc, '.', dqc, 'b'] ∧
      pgLexChunk ⟨none, false⟩ ([dqc] ++ (['a', dqc, '.', dqc, 'b'] ++ [dqc])) =
        .ok (⟨none, false⟩, 2)) ∧
    (mysqlEscapeDelimited [bslc] bqc true = [bslc] ∧
      myLexLoop none (bqc :: ([bslc] ++ [bqc])) = .ok (some bqc, 0)) ∧
    (mysqlEscapeDelimited ['a', '.', 'b'] bqc false = ['a', bqc, '.', bqc, 'b'] ∧
      myLexLoop none (bqc :: (['a', bqc, '.', bqc, 'b'] ++ [bqc])) = .ok (none, 2)) :=
  ⟨⟨rfl, rfl⟩, ⟨rfl, rfl⟩, ⟨rfl, rfl⟩, ⟨rfl, rfl⟩⟩

/-- C5 (amended): the successful escapes re-lex as closed constructs, with
the corrections the code forces.  For Postgres: the plain quote family, the
unicode strings, the unicode and plain identifier contexts (when qualified
splitting is forbidden) and well-formed dollar contexts all end back at the
top level as one closed construct; an `e`-prefixed string ends in the `e`
continuation state instead; the continuation context emits a self-delimited
literal; with qualification allowed, the identifier contexts still
round-trip as one closed construct when the value contains no dot.
For MySQL: the quote contexts round-trip, and the backtick context
round-trips when the value contains no backslash (with qualification
allowed, additionally no dot). -/
theorem c5_round_trip :
    (∀ (d : Str), d = [sqc] ∨ d = ['b', sqc] ∨ d = ['x', sqc] → ∀ (v w : Str),
      pgEscapeDelimitedString v d = .ok w →
      pgLexChunk ⟨none, false⟩ (d ++ (w ++ [sqc])) = .ok (⟨none, false⟩, 1)) ∧
    (∀ (v w : Str), pgEscapeDelimitedString v ['e', sqc] = .ok w →
      pgLexChunk ⟨none, false⟩ (['e', sqc] ++ (w ++ [sqc])) =
        .ok (⟨some ['e'], false⟩, 1)) ∧
    (∀ (v w : Str), pgEscapeDelimitedString v ['u', '&', sqc] = .ok w →
      pgLexChunk ⟨none, false⟩ (['u', '&', sqc] ++ (w ++ [sqc])) =
        .ok (⟨none, false⟩, 1)) ∧
    (∀ (v w : Str), pgEscapeDelimitedString v ['e'] = .ok w →
      pgLexChunk ⟨none, false⟩ w = .ok (⟨none, false⟩, 1)) ∧
    (∀ (v w : Str), pgEscapeDelimited v [dqc] true = .ok w →
      pgLexChunk ⟨none, false⟩ ([dqc] ++ (w ++ [dqc])) = .ok (⟨none, false⟩, 1)) ∧
    (∀ (v w : Str), pgEscapeDelimited v ['u', '&', dqc] true = .ok w →
      pgLexChunk ⟨none, false⟩ (['u', '&', dqc] ++ (w ++ [dqc])) =
        .ok (⟨none, false⟩, 1)) ∧
    (∀ (tag v w : Str), (∀ c ∈ tag, isTagChar c = true) →
      (∀ c, tag.head? = some c → isTagStart c = true) →
      pgEscapeDelimitedString v ('$' :: (tag ++ ['$'])) = .ok w →
      pgLexChunk ⟨none, false⟩
        (('$' :: (tag ++ ['$'])) ++ (w ++ ('$' :: (tag ++ ['$'])))) =
        .ok (⟨none, false⟩, 1)) ∧
    (∀ (d : Char), d = sqc ∨ d = dqc → ∀ (v : Str),
      myLexLoop none (d :: (mysqlEscapeDelimited v d true ++ [d])) = .ok (none, 1)) ∧
    (∀ (v : Str), bslc ∉ v →
      myLexLoop none (bqc :: (mysqlEscapeDelimited v bqc true ++ [bqc])) =
        .ok (none, 1)) ∧
    (∀ (v : Str), '.' ∉ v → bslc ∉ v →
      myLexLoop none (bqc :: (mysqlEscapeDelimited v bqc false ++ [bqc])) =
        .ok (none, 1)) ∧
    (∀ (v w : Str), '.' ∉ v → pgEscapeDelimited v [dqc] false = .ok w →
      pgLexChunk ⟨none, false⟩ ([dqc] ++ (w ++ [dqc])) = .ok (⟨none, false⟩, 1)) ∧
    (∀ (v w : Str), '.' ∉ v → pgEscapeDelimited v ['u', '&', dqc] false = .ok w →
      pgLexChunk ⟨none, false⟩ (['u', '&', dqc] ++ (w ++ [dqc])) =
        .ok (⟨none, false⟩, 1)) := by
  refine ⟨?_, ?_, ?_, ?_, ?_, ?_, ?_, ?_, ?_, ?_, ?_, ?_⟩
  · intro d hd3 v w h
    rw [pgEscapeDelimitedString, if_pos hd3] at h
    injection h with h
    subst h
    refine pgLexChunk_single d _ ?_ (by simp) (pgMatchAt_delim d (by tauto) _) ?_ none ?_
    · rcases hd3 with rfl | rfl | rfl <;> simp
    · intro _
      rcases hd3 with rfl | rfl | rfl <;> decide
    · rw [pgHandle_last_sq d _ (by rcases hd3 with rfl | rfl | rfl <;> rfl)]
      exact pgSq_plain_close d hd3 v

  · intro v w h
    rw [pgEscapeDelimitedString, if_neg (by decide), if_pos rfl] at h
    injection h with h
    subst h
    refine pgLexChunk_single ['e', sqc] _ (by simp) (by simp)
      (pgMatchAt_delim _ (by tauto) _) (fun _ => by decide) (some ['e']) ?_
    rw [pgHandle_last_sq ['e', sqc] _ (by rfl)]
    exact pgSq_e_close v
  · intro v w h
    rw [pgEscapeDelimitedString, if_neg (by decide), if_neg (by decide),
      if_neg (by decide), if_pos rfl] at h
    injection h with h
    subst h
    refine pgLexChunk_single ['u', '&', sqc] _ (by simp) (by simp)
      (pgMatchAt_delim _ (by tauto) _) (fun _ => by decide) none ?_
    rw [pgHandle_last_sq ['u', '&', sqc] _ (by rfl)]
    exact pgSq_u_close v
  · intro v w h
    rw [pgEscapeDelimitedString, if_neg (by decide), if_neg (by decide),
      if_pos rfl] at h
    injection h with h
    subst h
    have hsh : sqc :: pgEscapeStringBody emapPgE v ++ [sqc] =
        [sqc] ++ (pgEscapeStringBody emapPgE v ++ [sqc]) := by simp
    rw [hsh]
    refine pgLexChunk_single [sqc] _ (by simp) (by simp)
      (pgMatchAt_delim _ (by tauto) _) (fun _ => by decide) none ?_
    rw [pgHandle_last_sq [sqc] _ (by rfl)]
    exact pgSq_simple_full_close v
  · intro v w h
    rw [pgEscapeDelimited_dq] at h
    injection h with h
    subst h
    refine pgLexChunk_single [dqc] _ (by simp) (by simp)
      (pgMatchAt_delim _ (by tauto) _) (fun _ => by decide) none ?_
    rw [pgHandle_last_dq [dqc] _ (by rfl)]
    exact pgDq_plain_close v
  · intro v w h
    rw [pgEscapeDelimited_udq] at h
    injection h with h
    subst h
    refine pgLexChunk_single ['u', '&', dqc] _ (by simp) (by simp)
      (pgMatchAt_delim _ (by tauto) _) (fun _ => by decide) none ?_
    rw [pgHandle_last_dq ['u', '&', dqc] _ (by rfl)]
    exact pgDq_u_close v
  · intro tag v w htag hstart h
    rw [pgEscapeDelimitedString] at h
    rw [if_neg (by simp +decide), if_neg (by simp +decide), if_neg (by simp +decide),
      if_neg (by simp +decide)] at h
    cases hok : pgDollarDelimOk ('$' :: (tag ++ ['$'])) with
    | false =>
      rw [if_neg (by simp [hok])] at h
      exact absurd h (by simp)
    | true =>
      rw [if_pos hok] at h
      cases hhaz : pgEmbedHazard v ('$' :: (tag ++ ['$'])) with
      | true =>
        rw [if_pos hhaz] at h
        exact absurd h (by simp)
      | false =>
        rw [if_neg (by simp [hhaz])] at h
        injection h with h
        subst h
        refine pgLexChunk_single ('$' :: (tag ++ ['$'])) _ (by simp) (by simp)
          (pgMatchAt_dollar tag htag hstart _) (fun hne => absurd rfl hne) none ?_
        have hform : ('$' :: (tag ++ ['$'])) = ('$' :: tag) ++ ['$'] := by simp
        rw [pgHandle_last_dollar _ _ (by rw [hform, getLast_app])]
        exact pgDollar_close tag v htag hhaz
  · intro d hd v
    rw [mysqlEscapeDelimited_str v d (by rcases hd with rfl | rfl <;> decide) true]
    exact myLexLoop_single d (by tauto) _ (myDelim_my_body d hd v)
  · intro v hv
    rw [mysqlEscapeDelimited_bt v]
    exact myLexLoop_single bqc (by tauto) _ (myDelim_bt_body v hv)
  · intro v hdot hv
    rw [mysqlEscapeDelimited_bt_noq v hdot]
    exact myLexLoop_single bqc (by tauto) _ (myDelim_bt_body v hv)
  · intro v w hdot h
    rw [pgEscapeDelimited_dq_noq v hdot] at h
    injection h with h
    subst h
    refine pgLexChunk_single [dqc] _ (by simp) (by simp)
      (pgMatchAt_delim _ (by tauto) _) (fun _ => by decide) none ?_
    rw [pgHandle_last_dq [dqc] _ (by rfl)]
    exact pgDq_plain_close v
  · intro v w hdot h
    rw [pgEscapeDelimited_udq_noq v hdot] at h
    injection h with h
    subst h
    refine pgLexChunk_single ['u', '&', dqc] _ (by simp) (by simp)
      (pgMatchAt_delim _ (by tauto) _) (fun _ => by decide) none ?_
    rw [pgHandle_last_dq ['u', '&', dqc] _ (by rfl)]
    exact pgDq_u_close v

/-- Witness for C5: each amended round-trip conjunct at a concrete value
(`\x27` for the doubling branch, `a` elsewhere, tag `f` for the dollar
context, and a backslash-free backtick identifier). -/
theorem c5_witness :
    (pgLexChunk ⟨none, false⟩ ([sqc] ++ ([sqc, sqc] ++ [sqc])) =
      .ok (⟨none, false⟩, 1)) ∧
    (pgLexChunk ⟨none, false⟩ (['e', sqc] ++ ([sqc, sqc] ++ [sqc])) =
      .ok (⟨some ['e'], false⟩, 1)) ∧
    (pgLexChunk ⟨none, false⟩ (['u', '&', sqc] ++ (['a'] ++ [sqc])) =
      .ok (⟨none, false⟩, 1)) ∧
    (pgLexChunk ⟨none, false⟩ [sqc, 'a', sqc] = .ok (⟨none, false⟩, 1)) ∧
    (pgLexChunk ⟨none, false⟩ ([dqc] ++ (['a'] ++ [dqc])) = .ok (⟨none, false⟩, 1)) ∧
    (pgLexChunk ⟨none, false⟩ (['u', '&', dqc] ++ (['a'] ++ [dqc])) =
      .ok (⟨none, false⟩, 1)) ∧
    (pgLexChunk ⟨none, false⟩
        (('$' :: (['f'] ++ ['$'])) ++ (['a'] ++ ('$' :: (['f'] ++ ['$'])))) =
      .ok (⟨none, false⟩, 1)) ∧
    (myLexLoop none (sqc :: (mysqlEscapeDelimited ['a'] sqc true ++ [sqc])) =
      .ok (none, 1)) ∧
    (myLexLoop none (bqc :: (mysqlEscapeDelimited ['a'] bqc true ++ [bqc])) =
      .ok (none, 1)) ∧
    (myLexLoop none (bqc :: (mysqlEscapeDelimited ['a'] bqc false ++ [bqc])) =
      .ok (none, 1)) ∧
    (pgLexChunk ⟨none, false⟩ ([dqc] ++ (['b'] ++ [dqc])) = .ok (⟨none, false⟩, 1)) ∧
    (pgLexChunk ⟨none, false⟩ (['u', '&', dqc] ++ (['b'] ++ [dqc])) =
      .ok (⟨none, false⟩, 1)) :=
  ⟨c5_round_trip.1 [sqc] (Or.inl rfl) [sqc] [sqc, sqc] rfl,
   c5_round_trip.2.1 [sqc] [sqc, sqc] rfl,
   c5_round_trip.2.2.1 ['a'] ['a'] rfl,
   c5_round_trip.2.2.2.1 ['a'] [sqc, 'a', sqc] rfl,
   c5_round_trip.2.2.2.2.1 ['a'] ['a'] rfl,
   c5_round_trip.2.2.2.2.2.1 ['a'] ['a'] rfl,
   c5_round_trip.2.2.2.2.2.2.1 ['f'] ['a'] ['a'] (by decide) (by decide) rfl,
   c5_round_trip.2.2.2.2.2.2.2.1 sqc (Or.inl rfl) ['a'],
   c5_round_trip.2.2.2.2.2.2.2.2.1 ['a'] (by decide),
   c5_round_trip.2.2.2.2.2.2.2.2.2.1 ['a'] (by decide) (by decide),
   c5_round_trip.2.2.2.2.2.2.2.2.2.2.1 ['b'] ['b'] (by decide) rfl,
   c5_round_trip.2.2.2.2.2.2.2.2.2.2.2 ['b'] ['b'] (by decide) rfl⟩

end SafeSql
